import Mathlib

/-!
# process-tracker: identity resolution, durable publication, interposition hooks

A shallow embedding of `src/_src/utils.c`, `src/_src/preload.c` (the canonical
variant) and `src/utils.c`, `src/preload.c` (the simpler variant).

Conventions of the embedding:

* a byte is a `Char`; a C string is the list of its characters before the
  terminating NUL; a raw byte buffer (what `slurp_file` fills) is a list that
  may hold NUL, and the string functions see it through `cstr`;
* every call into the operating system or the allocator whose result the
  source tests has its answer in `World`, so every `CHECK` of the source is a
  branch of the model; a call whose result the source does not test is taken
  to succeed;
* `errno` is part of `World`: nothing on these paths clears it and `strtoull`
  writes it only on overflow;
* the two variants share every function except where `Variant` is matched on;
* the one loop without a bound in its text, in `slurp_file`, runs on fuel, and
  `slurp_loop_fuel` shows that the fuel given is never used up.
-/

namespace ProcessTracker

/-! ## Results of a C call -/

/-- Result of running a piece of C: a value, a fatal `CHECK` (`print_error`
then `abort()`), or behaviour the C standard leaves undefined. -/
inductive Res (α : Type) where
  | ok (a : α)
  | abort (message : String)
  | undefined
  deriving DecidableEq, Repr

/-- Sequencing: a fatal result or undefined behaviour ends the computation. -/
def Res.bind {α β : Type} (r : Res α) (f : α → Res β) : Res β :=
  match r with
  | .ok a => f a
  | .abort m => .abort m
  | .undefined => .undefined

/-- The macro `CHECK(predicate, message)`: fatal when `predicate` holds. -/
def CHECK (predicate : Bool) (message : String) : Res Unit :=
  if predicate then .abort message else .ok ()

/-! ## C strings and the libc functions used -/

/-- The NUL byte. -/
def NUL : Char := Char.ofNat 0

/-- The C string that starts a byte buffer: the bytes before the first NUL. -/
def cstr (buf : List Char) : List Char :=
  buf.takeWhile (fun c => c != NUL)

/-- The libc `rindex(s, c)`: the string that starts at the last occurrence of
`c` in `s`, or `none` (NULL). -/
def rindex (s : List Char) (c : Char) : Option (List Char) :=
  match s with
  | [] => none
  | x :: xs =>
    match rindex xs c with
    | some r => some r
    | none => if x = c then some (x :: xs) else none

/-- One call of libc `strtok` on the string `s` (the argument, or the saved
position when the argument is NULL): skip delimiters, cut the token at the
next delimiter, save the position after it. Returns the token (`none` for
NULL) and the saved position. -/
def strtok (s : List Char) (delim : List Char) : Option (List Char) × List Char :=
  let s1 := s.dropWhile (fun c => decide (c ∈ delim))
  if s1 = [] then (none, [])
  else
    (some (s1.takeWhile (fun c => !decide (c ∈ delim))),
      (s1.dropWhile (fun c => !decide (c ∈ delim))).drop 1)

/-- The value `ULLONG_MAX`. -/
def ULLONG_MAX : Nat := 2 ^ 64 - 1

/-- The value `ERANGE` of `errno.h` on Linux. -/
def ERANGE : Nat := 34

/-- The libc `isspace` in the C locale. -/
def isspace (c : Char) : Bool :=
  c = ' ' || (9 ≤ c.toNat && c.toNat ≤ 13)

/-- The libc `strtoull(nptr, NULL, 10)`: skip white space, read an optional
sign and the decimal digits; on overflow the value is `ULLONG_MAX` and
`errno` becomes `ERANGE`, otherwise `errno` is left as it was. Returns the
value and the new `errno`. -/
def strtoull (errno : Nat) (nptr : List Char) : Nat × Nat :=
  let s := nptr.dropWhile isspace
  let neg := s.head? = some '-'
  let s1 := if s.head? = some '-' ∨ s.head? = some '+' then s.drop 1 else s
  let v := (s1.takeWhile Char.isDigit).foldl (fun acc c => acc * 10 + (c.toNat - 48)) 0
  if ULLONG_MAX < v then (ULLONG_MAX, ERANGE)
  else if neg then ((2 ^ 64 - v) % 2 ^ 64, errno)
  else (v, errno)

/-- The conversion `%llu` (and `%d` of a value that is not negative). -/
def fmt_llu (n : Nat) : List Char := Nat.toDigits 10 n

/-- The conversion `%d`. -/
def fmt_d (n : Int) : List Char :=
  if n < 0 then '-' :: Nat.toDigits 10 n.natAbs else Nat.toDigits 10 n.toNat

/-! ## Input streams -/

/-- A stdio stream opened for reading. `rest` is what the file still holds;
`fail_at = some k` means the device fails once `k` more bytes have been
delivered (instead of delivering more data or reporting the end of the file).
`eof` and `err` are the two indicators, `close_fails` the answer of `fclose`. -/
structure FILE where
  rest : List Char
  fail_at : Option Nat
  eof : Bool
  err : Bool
  close_fails : Bool
  deriving DecidableEq, Repr

/-- A freshly opened stream over a readable file with the given content. -/
def FILE.of_bytes (content : List Char) : FILE :=
  { rest := content, fail_at := none, eof := false, err := false, close_fails := false }

/-- A freshly opened stream over a file with the given content on a device
that fails after `k` bytes. -/
def FILE.failing (content : List Char) (k : Nat) : FILE :=
  { rest := content, fail_at := some k, eof := false, err := false, close_fails := false }

/-- The libc `fread(ptr, 1, n, file)`: delivers up to `n` bytes; a short count
sets the error indicator when the device failed and the end-of-file indicator
otherwise. Returns the bytes delivered and the stream afterwards. -/
def fread (file : FILE) (n : Nat) : List Char × FILE :=
  let readable := match file.fail_at with
    | none => file.rest
    | some k => file.rest.take k
  let data := readable.take n
  let file1 : FILE := { file with
    rest := file.rest.drop data.length
    fail_at := file.fail_at.map (fun k => k - data.length) }
  if data.length < n then
    match file.fail_at with
    | some k => if k ≤ file.rest.length then (data, { file1 with err := true })
                else (data, { file1 with eof := true })
    | none => (data, { file1 with eof := true })
  else (data, file1)

/-! ## The world the component runs in -/

/-- A function pointer of type `int (*)(void *)`: code of the host program,
or the trampoline `wrapper_fn` of `preload.c`. -/
inductive FnPtr where
  | addr (a : Nat)
  | wrapper_fn
  deriving DecidableEq, Repr

/-- The struct `wrapper_arg` of `preload.c`. -/
structure wrapper_arg where
  arg : Nat
  fn : FnPtr
  deriving DecidableEq, Repr

/-- The seven parameters of `clone`. -/
structure CloneArgs where
  fn : FnPtr
  child_stack : Nat
  flags : Int
  arg : Nat
  ptid : Nat
  newtls : Nat
  ctid : Nat
  deriving DecidableEq, Repr

/-- The seven parameters of `__libc_start_main`. -/
structure StartArgs where
  main : Nat
  argc : Int
  ubp_av : Nat
  init : Nat
  fini : Nat
  rtld_fini : Nat
  stack_end : Nat
  deriving DecidableEq, Repr

/-- What the component does to the outside, in the order it does it. -/
inductive Event where
  | fopen_w (path : List Char) (opened : Bool)
  | get_start_time (pid : Int)
  | fclose (path : List Char) (closed : Bool)
  | rename (src dst : List Char) (renamed : Bool)
  | call (fn : FnPtr) (arg : Nat)
  | clone_ (args : CloneArgs) (pointee : Option wrapper_arg)
  | libc_start_main (args : StartArgs)
  deriving DecidableEq, Repr

/-- The files of the file system, by path. -/
abbrev Files := List Char → Option (List Char)

/-- State of the process and of its surroundings, with the answers of the
operating system and of the allocator. -/
structure World where
  /-- Value of `getenv("SHIM_PID_DIR")`. -/
  SHIM_PID_DIR : Option (List Char)
  /-- Value of `getpid()`. -/
  pid : Int
  /-- Thread-local `errno`. -/
  errno : Nat
  /-- What `fopen(path, "r")` gives: a stream, or `none` for NULL. The only file
  read is `/proc/<pid>/stat`, which is none of the files written. -/
  open_r : List Char → Option FILE
  /-- Whether a tested allocation of the given size gives NULL. -/
  alloc_fails : Nat → Bool
  /-- Bytes found in freshly allocated memory, by offset. -/
  junk : Nat → Char
  /-- The files that exist, with their content. -/
  files : Files
  /-- Whether `fopen(path, "w")` gives NULL. -/
  fopen_w_fails : List Char → Bool
  /-- Answer of `fclose` on the output stream of a path: `none` when it
  succeeds, `some k` when it fails after `k` buffered bytes reached the file. -/
  fclose_w_fails : List Char → Option Nat
  /-- Whether `rename(src, dst)` gives -1. -/
  rename_fails : List Char → List Char → Bool
  /-- The `wrapper_arg` objects on the heap, by address. -/
  heap : Nat → Option wrapper_arg
  /-- Address the next `malloc(sizeof(wrapper_arg))` returns. -/
  malloc_next : Nat
  /-- Earlier states of `files`, most recent first: one per change. -/
  past : List Files
  /-- The events so far, oldest first. -/
  log : List Event

/-- Record an event. -/
def World.logged (w : World) (e : Event) : World :=
  { w with log := w.log ++ [e] }

/-- Change one file (create, overwrite or remove it), keeping the previous
state of the file system in `past`. -/
def World.set_file (w : World) (path : List Char) (content : Option (List Char)) : World :=
  { w with files := Function.update w.files path content, past := w.files :: w.past }

/-- The two variants of the source tree. -/
inductive Variant where
  | canonical
  | simple
  deriving DecidableEq, Repr

/-! ## `utils.c` -/

/-- The constant `block_size` of `slurp_file`. -/
def block_size : Nat := 1024

/-- The libc `realloc(buf, n)` when it succeeds: the first `n` bytes of `buf`,
followed by whatever the new memory holds. -/
def realloc (w : World) (buf : List Char) (n : Nat) : List Char :=
  buf.take n ++ (List.range (n - buf.length)).map (fun i => w.junk (buf.length + i))

/-- Store `data` into `buf` from offset `off` on. -/
def store (buf : List Char) (off : Nat) (data : List Char) : List Char :=
  buf.take off ++ data ++ buf.drop (off + data.length)

/-- The `while ( !feof( file ) )` loop of `slurp_file`, one iteration per unit
of fuel, on the stream, `*out` and `*size`. -/
def slurp_loop (w : World) : Nat → FILE → List Char → Nat → Res (FILE × List Char × Nat)
  | 0, _, _, _ => .undefined
  | fuel + 1, file, out, size =>
    if file.eof then .ok (file, out, size)
    else
      let size1 := size + block_size
      if w.alloc_fails size1 then .abort "realloc"
      else
        let out1 := realloc w out size1
        let r := fread file block_size
        let out2 := store out1 (size1 - block_size) r.1
        let result := r.1.length
        if result < block_size then
          if result = 0 ∧ r.2.err then .abort "fread"
          else .ok (r.2, out2, size1 - block_size + result)
        else slurp_loop w fuel r.2 out2 size1

/-- The function `slurp_file(path, out, size)`; returns `*out` and `*size`.
A full block takes 1024 bytes off the file, so the loop runs at most
`rest.length / 1024 + 1` times. -/
def slurp_file (w : World) (path : List Char) : Res (List Char × Nat) :=
  match w.open_r path with
  | none => .abort "fopen"
  | some file =>
    (slurp_loop w (file.rest.length / block_size + 1) file [] 0).bind fun (file1, out, size) =>
      (CHECK file1.close_fails "fclose").bind fun _ =>
        if size < out.length then .ok (out.set size NUL, size) else .undefined

/-- The function `str_print(fmt, ...)`, given the text the format expands to:
a fresh copy of it, or `none` (NULL) when `malloc` fails (`vsnprintf` itself
does not fail on the formats used). -/
def str_print (w : World) (text : List Char) : Option (List Char) :=
  if w.alloc_fails (text.length + 1) then none else some text

/-- The libc `snprintf(buf, size, ...)`, given the text the format expands
to: what `buf` holds afterwards as a string. -/
def snprintf (size : Nat) (text : List Char) : List Char :=
  text.take (size - 1)

/-- The `for ( int i = 3; i != 23; ++i )` loop of `get_start_time`, with `n`
iterations to go: each takes the next token. Returns the last `field`. -/
def fields_loop (field : List Char) (saved : List Char) : Nat → Res (List Char)
  | 0 => .ok field
  | n + 1 =>
    match strtok saved [' '] with
    | (none, _) => .abort "parsing fields"
    | (some field1, saved1) => fields_loop field1 saved1 n

/-- The string in `stat_path` of `get_start_time`: the variants differ in how
it is built, `str_print` (not tested for NULL) in the canonical one,
`snprintf` into `char stat_path[32]` in the simpler one. -/
def stat_path (v : Variant) (pid : Int) : List Char :=
  match v with
  | .canonical => "/proc/".toList ++ fmt_d pid ++ "/stat".toList
  | .simple => snprintf 32 ("/proc/".toList ++ fmt_d pid ++ "/stat".toList)

/-- The function `get_start_time(pid)`, of either variant. -/
def get_start_time (v : Variant) (w : World) (pid : Int) : Res Nat :=
  (slurp_file w (stat_path v pid)).bind fun (contents, _) =>
    match rindex (cstr contents) ')' with
    | none => .abort "finding end of name"
    | some end_of_name =>
      match strtok end_of_name [' '] with
      | (none, _) => .abort "finding start"
      | (some field, saved) =>
        (fields_loop field saved (23 - 3)).bind fun field1 =>
          let r := strtoull w.errno field1
          (CHECK (r.1 == ULLONG_MAX && r.2 == ERANGE) "parsing time").bind fun _ =>
            .ok r.1

/-- The libc `fopen(path, "w")`: NULL (`false`), or the file is created or
truncated. -/
def fopen_w (w : World) (path : List Char) : Bool × World :=
  if w.fopen_w_fails path then (false, w.logged (.fopen_w path false))
  else (true, (w.set_file path (some [])).logged (.fopen_w path true))

/-- The libc `fclose` on the output stream of `path` that holds `buffer`
unwritten: the buffer is flushed to the file, wholly when the call succeeds
(`true`), up to the point of failure otherwise. -/
def fclose_w (w : World) (path : List Char) (buffer : List Char) : Bool × World :=
  match w.fclose_w_fails path with
  | none => (true, (w.set_file path (some buffer)).logged (.fclose path true))
  | some k => (false, (w.set_file path (some (buffer.take k))).logged (.fclose path false))

/-- The libc `rename(src, dst)`: fails (`false`) when the system says so or
`src` does not exist; does nothing when both name the same file; otherwise
`dst` gets the file and `src` is gone, in one step. -/
def rename (w : World) (src dst : List Char) : Bool × World :=
  if w.rename_fails src dst ∨ w.files src = none then (false, w.logged (.rename src dst false))
  else if src = dst then (true, w.logged (.rename src dst true))
  else
    (true, { w with
      files := Function.update (Function.update w.files dst (w.files src)) src none
      past := w.files :: w.past
      log := w.log ++ [.rename src dst true] })

/-- The libc `strncpy(dest, src, n)`: the `n` bytes written to `dest`. -/
def strncpy (src : List Char) (n : Nat) : List Char :=
  src.take n ++ List.replicate (n - src.length) NUL

/-- The macro `PID_MAX_LIMIT_LEN` of the simpler variant: `LEN(PID_MAX_LIMIT)`
is `strlen( #v )`, the length of the text `PID_MAX_LIMIT`. -/
def PID_MAX_LIMIT_LEN : Nat := "PID_MAX_LIMIT".length

/-- The temporary path of the simpler variant: what `snprintf` leaves in
`tmp_path`, a buffer of `len` bytes. -/
def simple_tmp_path (dir_path : List Char) (pid : Int) : List Char :=
  snprintf (dir_path.length + PID_MAX_LIMIT_LEN + 6)
    (dir_path ++ "/".toList ++ fmt_d pid ++ ".tmp".toList)

/-- The rename destination of the simpler variant: the string in `path` after
`strncpy( path, tmp_path, len - 4 )` and `path[len - 4] = 0` (a store one byte
past the `len - 4` bytes asked of `malloc`). -/
def simple_path (dir_path : List Char) (pid : Int) : List Char :=
  let len := dir_path.length + PID_MAX_LIMIT_LEN + 6
  cstr (strncpy (simple_tmp_path dir_path pid) (len - 4) ++ [NUL])

/-- The function `write_identity()`, of either variant. -/
def write_identity (v : Variant) (w : World) : Res Unit × World :=
  match w.SHIM_PID_DIR with
  | none => (.ok (), w)
  | some dir_path =>
    let pid := w.pid
    match v with
    | .canonical =>
      match str_print w (dir_path ++ "/".toList ++ fmt_d pid ++ ".tmp".toList) with
      | none => (.abort "creating tmp_path", w)
      | some tmp_path =>
        match fopen_w w tmp_path with
        | (false, w1) => (.abort "opening output", w1)
        | (true, w1) =>
          let w2 := w1.logged (.get_start_time pid)
          match get_start_time .canonical w2 pid with
          | .abort m => (.abort m, w2)
          | .undefined => (.undefined, w2)
          | .ok start_time =>
            match fclose_w w2 tmp_path (fmt_llu start_time ++ "\n".toList) with
            | (false, w3) => (.abort "closing output", w3)
            | (true, w3) =>
              match str_print w3 (dir_path ++ "/".toList ++ fmt_d pid) with
              | none => (.abort "creating path", w3)
              | some path =>
                match rename w3 tmp_path path with
                | (false, w4) => (.abort "rename", w4)
                | (true, w4) => (.ok (), w4)
    | .simple =>
      let len := dir_path.length + PID_MAX_LIMIT_LEN + 6
      let tmp_path := simple_tmp_path dir_path pid
      match fopen_w w tmp_path with
      | (false, w1) => (.abort "opening output", w1)
      | (true, w1) =>
        let w2 := w1.logged (.get_start_time pid)
        match get_start_time .simple w2 pid with
        | .abort m => (.abort m, w2)
        | .undefined => (.undefined, w2)
        | .ok start_time =>
          match fclose_w w2 tmp_path (fmt_llu start_time ++ "\n".toList) with
          | (false, w3) => (.abort "closing output", w3)
          | (true, w3) =>
            if w3.alloc_fails (len - 4) then (.abort "malloc", w3)
            else
              match rename w3 tmp_path (simple_path dir_path pid) with
              | (false, w4) => (.abort "rename", w4)
              | (true, w4) => (.ok (), w4)

/-! ## `preload.c` -/

/-- What `dlsym( RTLD_NEXT, ... )` resolves to, and the code behind the
function pointers of the host program: each takes its arguments and the world
and gives its return value and the world afterwards. -/
structure Next where
  libc_start_main : StartArgs → World → Int × World
  clone_ : CloneArgs → World → Int × World
  call : FnPtr → Nat → World → Int × World

/-- The hook `__libc_start_main`, the same text in both variants. -/
def __libc_start_main (v : Variant) (next : Next) (a : StartArgs) (w : World) :
    Res Int × World :=
  match write_identity v w with
  | (.ok _, w1) =>
    let r := next.libc_start_main a (w1.logged (.libc_start_main a))
    (.ok r.1, r.2)
  | (.abort m, w1) => (.abort m, w1)
  | (.undefined, w1) => (.undefined, w1)

/-- The trampoline `wrapper_fn( arg )` of the canonical variant. -/
def wrapper_fn (next : Next) (arg : Nat) (w : World) : Res Int × World :=
  match write_identity .canonical w with
  | (.ok _, w1) =>
    match w1.heap arg with
    | none => (.undefined, w1)
    | some wrapped_arg =>
      let r := next.call wrapped_arg.fn wrapped_arg.arg
        (w1.logged (.call wrapped_arg.fn wrapped_arg.arg))
      (.ok r.1, r.2)
  | (.abort m, w1) => (.abort m, w1)
  | (.undefined, w1) => (.undefined, w1)

/-- The constant `CLONE_THREAD`. -/
def CLONE_THREAD : Int := 0x00010000

/-- The hook `clone` of the canonical variant. -/
def clone (next : Next) (a : CloneArgs) (w : World) : Int × World :=
  if Int.land CLONE_THREAD a.flags = 0 then
    let new_arg := w.malloc_next
    let w1 := { w with heap := Function.update w.heap new_arg (some { arg := a.arg, fn := a.fn }) }
    let a1 := { a with arg := new_arg, fn := FnPtr.wrapper_fn }
    let r := next.clone_ a1 (w1.logged (.clone_ a1 (w1.heap a1.arg)))
    (r.1, { r.2 with heap := Function.update r.2.heap a1.arg none })
  else
    next.clone_ a (w.logged (.clone_ a (w.heap a.arg)))

/-! ## Vocabulary of the statements -/

/-- Whether an event hands control to code outside the component. -/
def Event.is_forward : Event → Bool
  | .call _ _ => true
  | .clone_ _ _ => true
  | .libc_start_main _ => true
  | _ => false

/-- The step from `w` to `w1` hands no control over and leaves the heap alone:
the log grows by events that are not forwards. -/
def Quiet (w w1 : World) : Prop :=
  w1.heap = w.heap ∧ ∃ evs, w1.log = w.log ++ evs ∧ ∀ e ∈ evs, e.is_forward = false

/-- The step from `w` to `w1` changes none of the answers of the system: only
the files, their history, the heap and the log may differ. -/
def Same (w w1 : World) : Prop :=
  w1.SHIM_PID_DIR = w.SHIM_PID_DIR ∧ w1.pid = w.pid ∧ w1.errno = w.errno ∧
  w1.open_r = w.open_r ∧ w1.alloc_fails = w.alloc_fails ∧ w1.junk = w.junk ∧
  w1.fopen_w_fails = w.fopen_w_fails ∧ w1.fclose_w_fails = w.fclose_w_fails ∧
  w1.rename_fails = w.rename_fails

/-- Every state the file system goes through from `w` to `w1`, both ends
included, satisfies `P`: the history grew by such states and the current one
is such. -/
def Track (P : Files → Prop) (w w1 : World) : Prop :=
  ∃ new, w1.past = new ++ w.past ∧ ∀ fs ∈ w1.files :: new, P fs

/-- The space-delimited tokens of a text: the pieces between spaces that are
not empty. -/
def tokens (s : List Char) : List (List Char) :=
  (s.splitOnP (fun c => c == ' ')).filter (fun t => !t.isEmpty)

/-- What follows the last occurrence of `c` in `s`. -/
def after_last (c : Char) (s : List Char) : List Char :=
  (s.reverse.takeWhile (fun x => x != c)).reverse

/-- A status record `<pid> (<name>) f3 f4 ... fN`, given the text of the pid,
the bytes of the name and the fields `f3`, ..., `fN`, each after one space. -/
def status_record (pid_text name : List Char) (fields : List (List Char)) : List Char :=
  pid_text ++ " (".toList ++ name ++ ")".toList ++ (fields.map (fun f => ' ' :: f)).flatten

/-! ## Sample inputs -/

/-- A world where every call succeeds: pid 1, an empty file system, and
`/proc/1/stat` holding `content`. -/
def sample_world (dir : Option (List Char)) (content : List Char) : World :=
  { SHIM_PID_DIR := dir
    pid := 1
    errno := 0
    open_r := fun p => if p = "/proc/1/stat".toList then some (FILE.of_bytes content) else none
    alloc_fails := fun _ => false
    junk := fun _ => 'x'
    files := fun _ => none
    fopen_w_fails := fun _ => false
    fclose_w_fails := fun _ => none
    rename_fails := fun _ _ => false
    heap := fun _ => none
    malloc_next := 4096
    past := []
    log := [] }

/-- A status record with start time 1234 and a name that holds spaces and
parentheses. -/
def sample_record : List Char :=
  "1 (a b) (c) S 0 1 1 0 -1 4194560 90 0 0 0 1 2 0 0 20 0 1 0 1234 4096 55 18446744073709551615\n".toList

/-- A status record whose start time is `ULLONG_MAX`. -/
def max_record : List Char :=
  "1 (a b) (c) S 0 1 1 0 -1 4194560 90 0 0 0 1 2 0 0 20 0 1 0 18446744073709551615 4096 55\n".toList

/-- A world that publishes into `/tmp`, where `/tmp/1` is left over from an
earlier process with pid 1 and start time 9. -/
def stale_world : World :=
  { sample_world (some "/tmp".toList) sample_record with
    files := fun p => if p = "/tmp/1".toList then some "9\n".toList else none }

/-- A status record that stops after field 5. -/
def short_record : List Char := "1 (a) S 1 2".toList

/-- The buffer `slurp_file` returns for `short_record`: a block of 1024 bytes,
the record, the NUL and what the allocator left there. -/
def short_buffer : List Char := short_record ++ NUL :: List.replicate 1012 'x'

/-- Arguments of a `clone` call that creates a thread (`CLONE_THREAD` set). -/
def thread_args : CloneArgs :=
  { fn := .addr 100, child_stack := 200, flags := 0x3d0f00, arg := 300, ptid := 400,
    newtls := 500, ctid := 600 }

/-- Arguments of a `clone` call that creates a process (`CLONE_THREAD` clear). -/
def process_args : CloneArgs :=
  { fn := .addr 100, child_stack := 200, flags := 0x1200011, arg := 300, ptid := 400,
    newtls := 500, ctid := 600 }

/-- The next in line for both hooks and the code of the host program, as
stand-ins: each returns a fixed value and leaves the world as it is. -/
def sample_next : Next :=
  { libc_start_main := fun _ w => (0, w)
    clone_ := fun _ w => (4711, w)
    call := fun _ _ w => (7, w) }

/-- A world whose `/proc/1/stat` holds `abc` on a device that fails after `k`
bytes. -/
def read_error_world (k : Nat) : World :=
  { sample_world none [] with
    open_r := fun _ => some (FILE.failing "abc".toList k) }

/-! ## Theorems -/

/-! ### C strings and decimal text -/

/-- A string without NUL, followed by a NUL, is the C string of the buffer. -/
theorem cstr_append_NUL (s t : List Char) (h : ∀ c ∈ s, c ≠ NUL) :
    cstr (s ++ NUL :: t) = s := by
  induction s with
  | nil => simp [cstr]
  | cons x xs ih =>
    have hx : x ≠ NUL := h x (by simp)
    have := ih (fun c hc => h c (by simp [hc]))
    simp only [cstr] at this ⊢
    simp [List.takeWhile_cons, hx, this]

/-- A buffer that starts with a text without NUL and holds a NUL right after it
is, as a C string, that text. -/
theorem cstr_buffer (out text : List Char) (h1 : out.take text.length = text)
    (h2 : out[text.length]? = some NUL) (h3 : ∀ c ∈ text, c ≠ NUL) : cstr out = text := by
  have hsplit := List.take_append_drop text.length out
  have h0 : (out.drop text.length)[0]? = some NUL := by
    rw [List.getElem?_drop]
    simpa using h2
  cases hd : out.drop text.length with
  | nil => rw [hd] at h0; simp at h0
  | cons a t =>
    rw [hd] at h0
    have ha : a = NUL := by simpa using h0
    subst ha
    rw [← hsplit, h1, hd]
    exact cstr_append_NUL text t h3

/-- No decimal digit is the NUL byte. -/
theorem digitChar_ne_NUL : ∀ d, d < 10 → Nat.digitChar d ≠ NUL := by
  decide

/-- The digits `Nat.toDigitsCore` puts before an accumulator without NUL hold no
NUL. -/
theorem toDigitsCore_no_NUL (fuel : Nat) : ∀ (n : Nat) (acc : List Char),
    (∀ c ∈ acc, c ≠ NUL) → ∀ c ∈ Nat.toDigitsCore 10 fuel n acc, c ≠ NUL := by
  induction fuel with
  | zero => intro n acc h; simpa [Nat.toDigitsCore] using h
  | succ fuel ih =>
    intro n acc h
    have h1 : ∀ c ∈ Nat.digitChar (n % 10) :: acc, c ≠ NUL := by
      intro c hc
      rcases List.mem_cons.1 hc with rfl | hc
      · exact digitChar_ne_NUL _ (Nat.mod_lt _ (by decide))
      · exact h c hc
    simp only [Nat.toDigitsCore]
    split
    · exact h1
    · exact ih _ _ h1

/-- The decimal text of a number holds no NUL. -/
theorem toDigits_no_NUL (n : Nat) : ∀ c ∈ Nat.toDigits 10 n, c ≠ NUL :=
  toDigitsCore_no_NUL _ _ _ (by simp)

/-- A number below `10 ^ e` has at most `e` decimal digits. -/
theorem toDigits_length_le (n e : Nat) (h : n < 10 ^ e) (he : 0 < e) :
    (Nat.toDigits 10 n).length ≤ e :=
  Nat.toDigitsCore_length 10 (by decide) (n + 1) n e h he

/-- The ten decimal digits: each passes `isdigit`, stands for its value, is no
white space and no sign. -/
theorem digitChar_facts : ∀ d, d < 10 →
    (Nat.digitChar d).isDigit = true ∧ (Nat.digitChar d).toNat - 48 = d ∧
    isspace (Nat.digitChar d) = false ∧ Nat.digitChar d ≠ '-' ∧ Nat.digitChar d ≠ '+' := by
  decide

/-- The accumulator of `Nat.toDigitsCore` ends up after the digits. -/
theorem toDigitsCore_append (fuel : Nat) : ∀ (n : Nat) (acc : List Char),
    Nat.toDigitsCore 10 fuel n acc = Nat.toDigitsCore 10 fuel n [] ++ acc := by
  induction fuel with
  | zero => intro n acc; simp [Nat.toDigitsCore]
  | succ fuel ih =>
    intro n acc
    simp only [Nat.toDigitsCore]
    split
    · rfl
    · rw [ih _ (_ :: acc), ih _ [_], List.append_assoc]
      rfl

/-- Every character `Nat.toDigitsCore` produces in base 10 is a decimal digit. -/
theorem toDigitsCore_digits (fuel : Nat) : ∀ (n : Nat),
    ∀ c ∈ Nat.toDigitsCore 10 fuel n [], ∃ d, d < 10 ∧ c = Nat.digitChar d := by
  induction fuel with
  | zero => intro n c hc; simp [Nat.toDigitsCore] at hc
  | succ fuel ih =>
    intro n c hc
    simp only [Nat.toDigitsCore] at hc
    split at hc
    · exact ⟨n % 10, Nat.mod_lt _ (by decide), by simpa using hc⟩
    · rw [toDigitsCore_append] at hc
      rcases List.mem_append.1 hc with h | h
      · exact ih _ c h
      · exact ⟨n % 10, Nat.mod_lt _ (by decide), by simpa using h⟩

/-- Every character of the decimal text of a number is a decimal digit. -/
theorem toDigits_digits (n : Nat) :
    ∀ c ∈ Nat.toDigits 10 n, ∃ d, d < 10 ∧ c = Nat.digitChar d :=
  toDigitsCore_digits _ _

/-- Reading the decimal text of `n` digit by digit gives `n` back. -/
theorem foldl_toDigitsCore (fuel : Nat) : ∀ (n : Nat), n < fuel →
    (Nat.toDigitsCore 10 fuel n []).foldl (fun acc c => acc * 10 + (c.toNat - 48)) 0 = n := by
  induction fuel with
  | zero => intro n h; exact absurd h (Nat.not_lt_zero _)
  | succ fuel ih =>
    intro n h
    have hd := (digitChar_facts (n % 10) (Nat.mod_lt _ (by decide))).2.1
    simp only [Nat.toDigitsCore]
    split
    · rename_i h0
      simp only [List.foldl, hd]
      omega
    · rename_i h0
      rw [toDigitsCore_append, List.foldl_append, ih (n / 10) (by omega)]
      simp only [List.foldl, hd]
      omega

/-- On the decimal text of `T`, within range, `strtoull` gives `T` and leaves
`errno` alone. -/
theorem strtoull_decimal (errno T : Nat) (h : T ≤ ULLONG_MAX) :
    strtoull errno (fmt_llu T) = (T, errno) := by
  have hall := toDigits_digits T
  have hfold := foldl_toDigitsCore (T + 1) T (Nat.lt_succ_self T)
  unfold fmt_llu
  change (Nat.toDigits 10 T).foldl _ 0 = T at hfold
  generalize Nat.toDigits 10 T = ds at hall hfold
  have hdig : ∀ c ∈ ds, c.isDigit = true := by
    intro c hc
    obtain ⟨d, hd, rfl⟩ := hall c hc
    exact (digitChar_facts d hd).1
  have h1 : ds.dropWhile isspace = ds := by
    cases ds with
    | nil => rfl
    | cons c t =>
      obtain ⟨d, hd, rfl⟩ := hall c (by simp)
      rw [List.dropWhile_cons_of_neg (by simp [(digitChar_facts d hd).2.2.1])]
  have h2 : ds.head? ≠ some '-' ∧ ds.head? ≠ some '+' := by
    cases ds with
    | nil => simp
    | cons c t =>
      obtain ⟨d, hd, rfl⟩ := hall c (by simp)
      have := digitChar_facts d hd
      simp [this.2.2.2.1, this.2.2.2.2]
  have h3 : ds.takeWhile Char.isDigit = ds := by
    rw [List.takeWhile_eq_self_iff]
    exact hdig
  unfold strtoull
  simp only [h1, h2.1, h2.2, or_self, if_false, h3, hfold, not_lt.2 h, decide_False,
    Bool.false_eq_true]

/-! ### `slurp_file` -/

/-- Growing a buffer by `k` bytes keeps it and appends `k` bytes. -/
theorem realloc_grow (w : World) (out : List Char) (k : Nat) :
    ∃ fresh : List Char, fresh.length = k ∧ realloc w out (out.length + k) = out ++ fresh := by
  refine ⟨(List.range k).map (fun i => w.junk (out.length + i)), by simp, ?_⟩
  unfold realloc
  rw [List.take_of_length_le (by omega)]
  simp

/-- A store at the old end of a grown buffer overwrites the start of the new
bytes. -/
theorem store_at_end (out fresh data : List Char) :
    store (out ++ fresh) out.length data = out ++ data ++ fresh.drop data.length := by
  unfold store
  simp [List.take_append, List.drop_append_eq_append_drop]

/-- On a stream whose device does not fail, `fread` delivers the next bytes of
the file, up to the count asked, and leaves the end-of-file indicator alone
when it delivers the full count. -/
theorem fread_regular (file : FILE) (n : Nat) (h1 : file.fail_at = none) :
    (fread file n).1 = file.rest.take n ∧
    (fread file n).2.rest = file.rest.drop (file.rest.take n).length ∧
    (fread file n).2.fail_at = none ∧
    (fread file n).2.err = file.err ∧
    (fread file n).2.close_fails = file.close_fails ∧
    ((file.rest.take n).length = n → (fread file n).2.eof = file.eof) := by
  unfold fread
  simp only [h1]
  split
  · refine ⟨rfl, rfl, rfl, rfl, rfl, ?_⟩
    intro h
    omega
  · exact ⟨rfl, rfl, rfl, rfl, rfl, fun _ => rfl⟩

/-- What `fread` takes off the file is what it delivers. -/
theorem fread_rest (file : FILE) (n : Nat) :
    (fread file n).2.rest = file.rest.drop (fread file n).1.length ∧
    (fread file n).1.length ≤ file.rest.length := by
  have h1 : ∀ l : List Char, (l.take n).length ≤ l.length := by
    intro l; rw [List.length_take]; exact Nat.min_le_right _ _
  have h2 : ∀ k, (file.rest.take k).length ≤ file.rest.length := by
    intro k; rw [List.length_take]; exact Nat.min_le_right _ _
  unfold fread
  cases hf : file.fail_at with
  | none =>
    simp only []
    split
    · exact ⟨rfl, h1 _⟩
    · exact ⟨rfl, h1 _⟩
  | some k =>
    simp only []
    split
    · split
      · exact ⟨rfl, le_trans (h1 _) (h2 k)⟩
      · exact ⟨rfl, le_trans (h1 _) (h2 k)⟩
    · exact ⟨rfl, le_trans (h1 _) (h2 k)⟩

/-- The loop of `slurp_file` on a stream whose device does not fail, entered
with `*size` bytes read into `*out`: it ends with the rest of the file
appended, the size grown by its length and room left after it. -/
theorem slurp_loop_regular (w : World) (halloc : ∀ n, w.alloc_fails n = false) (fuel : Nat) :
    ∀ (file : FILE) (out : List Char), file.fail_at = none → file.eof = false →
      file.err = false → file.rest.length / block_size + 1 ≤ fuel →
      ∃ file1 out1, slurp_loop w fuel file out out.length
          = .ok (file1, out1, out.length + file.rest.length) ∧
        out1.take (out.length + file.rest.length) = out ++ file.rest ∧
        out.length + file.rest.length < out1.length ∧
        file1.close_fails = file.close_fails := by
  induction fuel with
  | zero => intro file out _ _ _ h; exact absurd h (Nat.not_succ_le_zero _)
  | succ fuel ih =>
    intro file out h1 h2 h3 hfuel
    obtain ⟨fresh, hfl, hre⟩ := realloc_grow w out block_size
    obtain ⟨r1, r2, r3, r4, r5, r6⟩ := fread_regular file block_size h1
    have hmin : (file.rest.take block_size).length = min block_size file.rest.length :=
      List.length_take _ _
    simp only [slurp_loop, h2, halloc, hre, Nat.add_sub_cancel, store_at_end, r1]
    by_cases hshort : file.rest.length < block_size
    · have htake : file.rest.take block_size = file.rest :=
        List.take_of_length_le (by omega)
      rw [htake]
      simp only [Bool.false_eq_true, if_false, hshort, if_true, r4, h3, and_false]
      refine ⟨_, _, rfl, ?_, ?_, r5⟩
      · rw [← List.length_append, List.take_left]
      · simp only [List.length_append, List.length_drop, hfl]
        omega
    · have hlen : (file.rest.take block_size).length = block_size := by
        rw [hmin]; omega
      simp only [Bool.false_eq_true, if_false, hlen, lt_irrefl]
      have hdrop : fresh.drop block_size = [] := by
        apply List.drop_of_length_le
        omega
      rw [hdrop, List.append_nil]
      have hlen2 : out.length + block_size = (out ++ file.rest.take block_size).length := by
        rw [List.length_append, hlen]
      rw [hlen2]
      have hrest : (fread file block_size).2.rest = file.rest.drop block_size := by
        rw [r2, hlen]
      obtain ⟨file1, out1, e1, e2, e3, e4⟩ := ih (fread file block_size).2
        (out ++ file.rest.take block_size) r3 ((r6 hlen).trans h2) (r4.trans h3) (by
          rw [hrest, List.length_drop]
          unfold block_size at *
          omega)
      have hsum : (out ++ file.rest.take block_size).length
          + (fread file block_size).2.rest.length = out.length + file.rest.length := by
        rw [hrest, List.length_append, hlen, List.length_drop]
        unfold block_size at *
        omega
      rw [hsum] at e1 e2 e3
      refine ⟨file1, out1, e1, ?_, e3, e4.trans r5⟩
      rw [e2, hrest, List.append_assoc, List.take_append_drop]

/-- Every iteration that does not leave the loop takes a full block off the
file, so the fuel `slurp_file` gives the loop is never used up: one unit more
changes nothing. -/
theorem slurp_loop_fuel (w : World) (fuel : Nat) : ∀ (file : FILE) (out : List Char)
    (size : Nat), file.rest.length / block_size + 1 ≤ fuel →
    slurp_loop w (fuel + 1) file out size = slurp_loop w fuel file out size := by
  induction fuel with
  | zero => intro file out size h; exact absurd h (Nat.not_succ_le_zero _)
  | succ fuel ih =>
    intro file out size h
    rw [slurp_loop, slurp_loop]
    by_cases h1 : file.eof = true
    · simp only [h1, if_true]
    · by_cases h2 : w.alloc_fails (size + block_size) = true
      · simp only [h1, h2, if_true, if_false]
      · by_cases h3 : (fread file block_size).1.length < block_size
        · simp only [h1, h2, h3, if_true, if_false]
        · simp only [h1, h2, h3, if_false]
          apply ih
          obtain ⟨hrest, hle⟩ := fread_rest file block_size
          rw [hrest, List.length_drop]
          unfold block_size at *
          omega

/-- What `slurp_file` returns for a readable file with the given content when
`realloc` succeeds: the size, the content, and a NUL after it inside the
buffer. -/
theorem slurp_file_of_bytes (w : World) (path content : List Char)
    (hopen : w.open_r path = some (FILE.of_bytes content))
    (halloc : ∀ n, w.alloc_fails n = false) :
    ∃ out, slurp_file w path = .ok (out, content.length) ∧
      out.take content.length = content ∧
      content.length < out.length ∧
      out[content.length]? = some NUL := by
  obtain ⟨file1, out1, e1, e2, e3, e4⟩ := slurp_loop_regular w halloc
    (content.length / block_size + 1) (FILE.of_bytes content) [] rfl rfl rfl (le_refl _)
  simp only [List.length_nil, Nat.zero_add, List.nil_append] at e1 e2 e3
  have e5 : file1.close_fails = false := e4
  have hrest : (FILE.of_bytes content).rest = content := rfl
  rw [hrest] at e1 e2 e3
  refine ⟨out1.set content.length NUL, ?_, ?_, ?_, ?_⟩
  · unfold slurp_file
    simp only [hopen, hrest, e1, Res.bind, CHECK, e5, Bool.false_eq_true, if_false, e3, if_true]
  · rw [List.set_take, List.set_eq_of_length_le (by simp), e2]
  · simpa using e3
  · simp [e3]

/-- C7: over a stream that delivers `min(1024, remaining)` bytes per read and
sets the end-of-file indicator only on a short read, with `realloc`
succeeding, `slurp_file` returns `*size = n`, the `n` bytes of the file first
in `*out`, and a NUL at index `n` inside the buffer, for content of every
length `n`. -/
theorem slurp_file_returns_content (w : World) (path content : List Char)
    (hopen : w.open_r path = some (FILE.of_bytes content))
    (halloc : ∀ n, w.alloc_fails n = false) :
    ∃ out, slurp_file w path = .ok (out, content.length) ∧
      out.take content.length = content ∧
      content.length < out.length ∧
      out[content.length]? = some NUL :=
  slurp_file_of_bytes w path content hopen halloc

/-- Witness of C7 on a file of 2048 bytes, two full blocks. -/
theorem slurp_file_returns_content_witness :
    (sample_world none (List.replicate 2048 'a')).open_r "/proc/1/stat".toList
        = some (FILE.of_bytes (List.replicate 2048 'a')) ∧
    ∃ out, slurp_file (sample_world none (List.replicate 2048 'a')) "/proc/1/stat".toList
        = .ok (out, (List.replicate 2048 'a').length) ∧
      out.take (List.replicate 2048 'a').length = List.replicate 2048 'a' ∧
      (List.replicate 2048 'a').length < out.length ∧
      out[(List.replicate 2048 'a').length]? = some NUL :=
  ⟨rfl, slurp_file_returns_content (sample_world none (List.replicate 2048 'a'))
    "/proc/1/stat".toList (List.replicate 2048 'a') rfl (fun _ => rfl)⟩

/-- On a stream whose device fails after `k` more bytes, before the end of the
file, `fread` delivers the next bytes up to the count asked and up to the
failure, and sets the error indicator exactly when it delivers a short count. -/
theorem fread_failing (file : FILE) (n k : Nat) (h1 : file.fail_at = some k)
    (hk : k ≤ file.rest.length) :
    (fread file n).1 = file.rest.take (min k n) ∧
    (fread file n).2.rest = file.rest.drop (min k n) ∧
    (fread file n).2.close_fails = file.close_fails ∧
    (n ≤ k → (fread file n).2.fail_at = some (k - n) ∧ (fread file n).2.eof = file.eof ∧
      (fread file n).2.err = file.err) ∧
    (k < n → (fread file n).2.err = true) := by
  have htake : (file.rest.take k).take n = file.rest.take (min k n) := by
    rw [List.take_take, Nat.min_comm]
  have hlen : (file.rest.take (min k n)).length = min k n := by
    rw [List.length_take]
    omega
  unfold fread
  simp only [h1, htake, hlen, hk, if_true, Option.map_some']
  by_cases hkn : k < n
  · have hm : min k n = k := Nat.min_eq_left hkn.le
    simp only [hm, hkn, if_true]
    simp
    omega
  · have hm : min k n = n := Nat.min_eq_right (Nat.le_of_not_lt hkn)
    simp only [hm, lt_irrefl, if_false]
    simp
    omega

/-- The loop of `slurp_file` on a stream whose device fails after `k` more bytes:
when the failure falls on a block boundary the loop is fatal, otherwise it
ends normally with the `k` bytes read before the failure. -/
theorem slurp_loop_failing (w : World) (halloc : ∀ n, w.alloc_fails n = false) (fuel : Nat) :
    ∀ (file : FILE) (out : List Char) (k : Nat), file.fail_at = some k →
      k ≤ file.rest.length → file.eof = false → file.err = false →
      k / block_size + 1 ≤ fuel →
      (k % block_size = 0 → slurp_loop w fuel file out out.length = .abort "fread") ∧
      (k % block_size ≠ 0 → ∃ file1 out1,
        slurp_loop w fuel file out out.length = .ok (file1, out1, out.length + k) ∧
        out1.take (out.length + k) = out ++ file.rest.take k ∧
        out.length + k < out1.length ∧
        file1.close_fails = file.close_fails) := by
  induction fuel with
  | zero => intro file out k _ _ _ _ h; exact absurd h (Nat.not_succ_le_zero _)
  | succ fuel ih =>
    intro file out k h1 hk h2 h3 hfuel
    obtain ⟨fresh, hfl, hre⟩ := realloc_grow w out block_size
    obtain ⟨r1, r2, r5, r6, r7⟩ := fread_failing file block_size k h1 hk
    have hdl : (file.rest.take (min k block_size)).length = min k block_size := by
      rw [List.length_take]
      omega
    simp only [slurp_loop, h2, halloc, hre, Nat.add_sub_cancel, store_at_end, r1, hdl]
    by_cases hshort : k < block_size
    · have hmin : min k block_size = k := Nat.min_eq_left hshort.le
      have hmod : k % block_size = k := Nat.mod_eq_of_lt hshort
      rw [hmin, hmod]
      simp only [Bool.false_eq_true, if_false, hshort, if_true, r7 hshort, and_true]
      constructor
      · intro h0
        simp [h0]
      · intro h0
        simp only [h0, if_false]
        refine ⟨_, _, rfl, ?_, ?_, r5⟩
        · have hl : (out ++ file.rest.take k).length = out.length + k := by
            rw [List.length_append, List.length_take, Nat.min_eq_left hk]
          rw [← hl, List.take_left]
        · simp only [List.length_append, List.length_take, List.length_drop, hfl,
            Nat.min_eq_left hk]
          omega
    · have hge : block_size ≤ k := Nat.le_of_not_lt hshort
      have hmin : min k block_size = block_size := Nat.min_eq_right hge
      rw [hmin] at r2 ⊢
      simp only [Bool.false_eq_true, if_false, lt_irrefl]
      have hdrop : fresh.drop block_size = [] := by
        apply List.drop_of_length_le
        omega
      rw [hdrop, List.append_nil]
      obtain ⟨q1, q2, q3⟩ := r6 hge
      have hlen2 : out.length + block_size = (out ++ file.rest.take block_size).length := by
        rw [List.length_append, List.length_take, Nat.min_eq_left (le_trans hge hk)]
      have hrl : (fread file block_size).2.rest.length = file.rest.length - block_size := by
        rw [r2, List.length_drop]
      have hmod : (k - block_size) % block_size = k % block_size := by
        unfold block_size at *
        omega
      obtain ⟨i1, i2⟩ := ih (fread file block_size).2 (out ++ file.rest.take block_size)
        (k - block_size) q1 (by rw [hrl]; omega) (q2.trans h2) (q3.trans h3) (by
          unfold block_size at *
          omega)
      rw [← hlen2] at i1 i2
      rw [hmod] at i1 i2
      have hsum : out.length + block_size + (k - block_size) = out.length + k := by omega
      rw [hsum] at i2
      refine ⟨i1, fun h0 => ?_⟩
      obtain ⟨file1, out1, e1, e2, e3, e4⟩ := i2 h0
      refine ⟨file1, out1, e1, ?_, e3, e4.trans r5⟩
      have hk2 : block_size + (k - block_size) = k := by omega
      have hta : file.rest.take k
          = file.rest.take block_size ++ (file.rest.drop block_size).take (k - block_size) := by
        rw [← List.take_add, hk2]
      rw [e2, r2, List.append_assoc, ← hta]

/-- A read error and `slurp_file`: on a readable file whose device fails after
`k` bytes, before the end of the content, `slurp_file` is fatal when `k` is a
multiple of the block size (the failing `fread` delivers nothing), and
otherwise returns normally with size `k` and the bytes read before the
failure. -/
theorem slurp_file_read_error (w : World) (path content : List Char) (k : Nat)
    (hopen : w.open_r path = some (FILE.failing content k))
    (halloc : ∀ n, w.alloc_fails n = false) (hk : k ≤ content.length) :
    (k % block_size = 0 → slurp_file w path = .abort "fread") ∧
    (k % block_size ≠ 0 → ∃ out, slurp_file w path = .ok (out, k) ∧
      out.take k = content.take k) := by
  have hfuel : k / block_size + 1 ≤ content.length / block_size + 1 :=
    Nat.succ_le_succ (Nat.div_le_div_right hk)
  obtain ⟨i1, i2⟩ := slurp_loop_failing w halloc (content.length / block_size + 1)
    (FILE.failing content k) [] k rfl hk rfl rfl hfuel
  simp only [List.length_nil, Nat.zero_add, List.nil_append] at i1 i2
  constructor
  · intro h0
    unfold slurp_file
    simp only [hopen]
    rw [show (FILE.failing content k).rest = content from rfl, i1 h0]
    rfl
  · intro h0
    obtain ⟨file1, out1, e1, e2, e3, e4⟩ := i2 h0
    have e5 : file1.close_fails = false := e4
    refine ⟨out1.set k NUL, ?_, ?_⟩
    · unfold slurp_file
      simp only [hopen]
      rw [show (FILE.failing content k).rest = content from rfl, e1]
      simp only [Res.bind, CHECK, e5, Bool.false_eq_true, if_false, e3, if_true]
    · rw [List.set_take, List.set_eq_of_length_le (by simp), e2]
      rfl

set_option maxRecDepth 100000 in
/-- C10, at a stream that holds `abc` and fails after one byte: the first
`fread` delivers one byte and sets the error indicator, and `slurp_file`
returns a buffer of size 1 holding `a` instead of ending fatally. When the
same stream fails before any byte is delivered, `slurp_file` is fatal. -/
theorem slurp_file_short_read_error :
    (fread (FILE.failing "abc".toList 1) block_size).1 = ['a'] ∧
    (fread (FILE.failing "abc".toList 1) block_size).2.err = true ∧
    (slurp_file (read_error_world 1) "/proc/1/stat".toList).bind (fun r => .ok (r.2, cstr r.1))
      = .ok (1, ['a']) ∧
    slurp_file (read_error_world 0) "/proc/1/stat".toList = .abort "fread" := by
  decide

/-! ### Tokens and `strtok` -/

/-- The empty text has no token. -/
theorem tokens_nil : tokens [] = [] := rfl

/-- A leading space adds no token. -/
theorem tokens_space (s : List Char) : tokens (' ' :: s) = tokens s := by
  simp [tokens]

/-- A text without space that is not empty is one token. -/
theorem tokens_word (x : List Char) (hx : x ≠ []) (hns : ∀ c ∈ x, c ≠ ' ') :
    tokens x = [x] := by
  unfold tokens
  rw [List.splitOnP_eq_single _ _ (by simpa using hns)]
  cases x with
  | nil => exact absurd rfl hx
  | cons a t => rfl

/-- A word and a space in front add the word as first token. -/
theorem tokens_word_space (x s : List Char) (hx : x ≠ []) (hns : ∀ c ∈ x, c ≠ ' ') :
    tokens (x ++ ' ' :: s) = x :: tokens s := by
  unfold tokens
  rw [List.splitOnP_first _ _ (by simpa using hns) ' ' (by simp)]
  cases x with
  | nil => exact absurd rfl hx
  | cons a t => rfl

/-- What stands before the first space adds at most one token. -/
theorem tokens_nonword_space (x s : List Char) (hns : ∀ c ∈ x, c ≠ ' ') :
    (tokens s).length ≤ (tokens (x ++ ' ' :: s)).length := by
  cases x with
  | nil => simp [tokens_space]
  | cons a t => rw [tokens_word_space _ _ (by simp) hns]; simp

/-- Skipping leading spaces keeps the tokens. -/
theorem tokens_dropWhile (s : List Char) :
    tokens (s.dropWhile (fun c => decide (c ∈ [' ']))) = tokens s := by
  induction s with
  | nil => rfl
  | cons x xs ih =>
    by_cases hx : x = ' '
    · subst hx
      rw [List.dropWhile_cons_of_pos (by simp), ih, tokens_space]
    · rw [List.dropWhile_cons_of_neg (by simpa using hx)]

/-- A text either holds no space or splits at its first space. -/
theorem cut_at_space (s : List Char) :
    (s.dropWhile (fun c => !decide (c ∈ [' '])) = [] ∧
      s.takeWhile (fun c => !decide (c ∈ [' '])) = s) ∨
    ∃ y, s.dropWhile (fun c => !decide (c ∈ [' '])) = ' ' :: y ∧
      s = s.takeWhile (fun c => !decide (c ∈ [' '])) ++ ' ' :: y := by
  have hsplit := List.takeWhile_append_dropWhile (fun c => !decide (c ∈ [' '])) s
  cases h : s.dropWhile (fun c => !decide (c ∈ [' '])) with
  | nil =>
    left
    rw [h, List.append_nil] at hsplit
    exact ⟨rfl, hsplit⟩
  | cons c y =>
    right
    have hc := List.head?_dropWhile_not (fun c => !decide (c ∈ [' '])) s
    rw [h] at hc
    simp at hc
    subst hc
    refine ⟨y, rfl, ?_⟩
    rw [h] at hsplit
    exact hsplit.symm

/-- What is taken up to the first space holds no space. -/
theorem takeWhile_no_space (s : List Char) :
    ∀ c ∈ s.takeWhile (fun c => !decide (c ∈ [' '])), c ≠ ' ' := by
  intro c hc
  have := List.mem_takeWhile_imp hc
  simpa using this

/-- One call of `strtok` on spaces takes the first token of the text, if there
is one, and saves a position from which the remaining tokens follow. -/
theorem strtok_spec (s : List Char) :
    (tokens s = [] ∧ strtok s [' '] = (none, [])) ∨
    ∃ t s1, strtok s [' '] = (some t, s1) ∧ tokens s = t :: tokens s1 := by
  unfold strtok
  rw [← tokens_dropWhile s]
  have hhead := List.head?_dropWhile_not (fun c => decide (c ∈ [' '])) s
  generalize s.dropWhile (fun c => decide (c ∈ [' '])) = s1 at hhead ⊢
  cases s1 with
  | nil =>
    left
    exact ⟨rfl, by simp⟩
  | cons c t =>
    right
    have hc : c ≠ ' ' := by simpa using hhead
    simp only [List.cons_ne_nil, if_false]
    refine ⟨_, _, rfl, ?_⟩
    have hx : (c :: t).takeWhile (fun c => !decide (c ∈ [' '])) ≠ [] := by
      rw [List.takeWhile_cons_of_pos (by simpa using hc)]
      simp
    rcases cut_at_space (c :: t) with ⟨h1, h2⟩ | ⟨y, h1, h2⟩
    · rw [h1, h2]
      have := takeWhile_no_space (c :: t)
      rw [h2] at this
      rw [tokens_word _ (by simp) this]
      rfl
    · rw [h1]
      have h3 := tokens_word_space _ y hx (takeWhile_no_space (c :: t))
      rw [← h2] at h3
      rw [h3]
      rfl

/-- With fewer tokens left than iterations to go, the loop over the fields is
fatal. -/
theorem fields_loop_short (n : Nat) : ∀ (field saved : List Char),
    (tokens saved).length < n → fields_loop field saved n = .abort "parsing fields" := by
  induction n with
  | zero => intro field saved h; exact absurd h (Nat.not_lt_zero _)
  | succ n ih =>
    intro field saved h
    rcases strtok_spec saved with ⟨_, h2⟩ | ⟨t, s1, h1, h2⟩
    · simp [fields_loop, h2]
    · rw [h2] at h
      simp only [fields_loop, h1]
      exact ih t s1 (by simpa using h)

/-- With enough tokens left, `n` iterations of the loop over the fields end on
the `n`-th of them. -/
theorem fields_loop_enough (n : Nat) : ∀ (field saved : List Char),
    n ≤ (tokens saved).length →
    fields_loop field saved n = .ok ((field :: tokens saved).getD n []) := by
  induction n with
  | zero => intro field saved _; rfl
  | succ n ih =>
    intro field saved h
    rcases strtok_spec saved with ⟨h1, _⟩ | ⟨t, s1, h1, h2⟩
    · rw [h1] at h; exact absurd h (by simp)
    · rw [h2] at h ⊢
      simp only [fields_loop, h1]
      rw [ih t s1 (by simpa using h)]
      rfl

/-- The first `strtok`, on the text from the last `)` on: the token starts with
the `)`, the saved position is after the first space. -/
theorem strtok_anchor (rest : List Char) :
    strtok (')' :: rest) [' '] =
      (some (')' :: rest.takeWhile (fun c => !decide (c ∈ [' ']))),
        (rest.dropWhile (fun c => !decide (c ∈ [' ']))).drop 1) := by
  unfold strtok
  rw [List.dropWhile_cons_of_neg (by decide)]
  simp only [List.cons_ne_nil, if_false]
  rw [List.takeWhile_cons_of_pos (by decide), List.dropWhile_cons_of_pos (by decide)]

/-- After the first `strtok` no more tokens are left than follow the `)`. -/
theorem tokens_saved_le (rest : List Char) :
    (tokens ((rest.dropWhile (fun c => !decide (c ∈ [' ']))).drop 1)).length
      ≤ (tokens rest).length := by
  rcases cut_at_space rest with ⟨h1, _⟩ | ⟨y, h1, h2⟩
  · rw [h1]; simp [tokens_nil]
  · rw [h1]
    have := tokens_nonword_space _ y (takeWhile_no_space rest)
    rw [← h2] at this
    simpa using this

/-- Fields without space, each after one space, are the tokens of their text. -/
theorem tokens_fields (fields : List (List Char))
    (h : ∀ f ∈ fields, f ≠ [] ∧ ∀ c ∈ f, c ≠ ' ') :
    tokens (fields.map (fun f => ' ' :: f)).flatten = fields := by
  induction fields with
  | nil => rfl
  | cons f fs ih =>
    have hf := h f (by simp)
    have ih1 := ih (fun g hg => h g (by simp [hg]))
    rw [List.map_cons, List.flatten_cons, List.cons_append, tokens_space]
    cases fs with
    | nil => simpa using tokens_word f hf.1 hf.2
    | cons g gs =>
      rw [List.map_cons, List.flatten_cons, List.cons_append] at ih1 ⊢
      rw [tokens_space] at ih1
      rw [tokens_word_space f _ hf.1 hf.2, ih1]

/-! ### The anchor: `rindex` -/

/-- Without an occurrence of `c`, `rindex` gives NULL. -/
theorem rindex_none (c : Char) (s : List Char) (h : c ∉ s) : rindex s c = none := by
  induction s with
  | nil => rfl
  | cons x xs ih =>
    have hx : x ≠ c := fun e => h (by simp [e])
    have hxs : c ∉ xs := fun e => h (by simp [e])
    simp [rindex, ih hxs, hx]

/-- What follows the last `c` does not depend on a character in front. -/
theorem after_last_cons_of_mem (c x : Char) (xs : List Char) (h : c ∈ xs) :
    after_last c (x :: xs) = after_last c xs := by
  unfold after_last
  rw [List.reverse_cons]
  congr 1
  have hmem : c ∈ xs.reverse := List.mem_reverse.2 h
  generalize xs.reverse = l at hmem
  induction l with
  | nil => simp at hmem
  | cons a t ih =>
    by_cases ha : a = c
    · subst ha
      simp
    · have : c ∈ t := by
        rcases List.mem_cons.1 hmem with e | e
        · exact absurd e.symm ha
        · exact e
      rw [List.cons_append, List.takeWhile_cons_of_pos (by simpa using ha),
        List.takeWhile_cons_of_pos (by simpa using ha), ih this]

/-- After a leading `c` that is the only one comes the rest. -/
theorem after_last_cons_of_not_mem (c : Char) (xs : List Char) (h : c ∉ xs) :
    after_last c (c :: xs) = xs := by
  unfold after_last
  rw [List.reverse_cons]
  have hmem : c ∉ xs.reverse := fun e => h (List.mem_reverse.1 e)
  have : (xs.reverse ++ [c]).takeWhile (fun x => x != c) = xs.reverse := by
    generalize xs.reverse = l at hmem
    induction l with
    | nil => simp
    | cons a t ih =>
      have ha : a ≠ c := fun e => hmem (by simp [e])
      have ht : c ∉ t := fun e => hmem (by simp [e])
      rw [List.cons_append, List.takeWhile_cons_of_pos (by simpa using ha), ih ht]
  rw [this, List.reverse_reverse]

/-- With an occurrence of `c`, `rindex` gives the last `c` and what follows it. -/
theorem rindex_some (c : Char) (s : List Char) (h : c ∈ s) :
    rindex s c = some (c :: after_last c s) := by
  induction s with
  | nil => simp at h
  | cons x xs ih =>
    by_cases hxs : c ∈ xs
    · simp [rindex, ih hxs, after_last_cons_of_mem c x xs hxs]
    · have hx : x = c := by
        rcases List.mem_cons.1 h with e | e
        · exact e.symm
        · exact absurd e hxs
      subst hx
      simp [rindex, rindex_none x xs hxs, after_last_cons_of_not_mem x xs hxs]

/-- After a `c` followed by a text without `c`, that text is what follows the
last `c`. -/
theorem after_last_append (c : Char) (p r : List Char) (h : c ∉ r) :
    after_last c (p ++ c :: r) = r := by
  induction p with
  | nil => exact after_last_cons_of_not_mem c r h
  | cons x xs ih =>
    rw [List.cons_append, after_last_cons_of_mem c x _ (by simp), ih]

/-! ### `get_start_time` -/

/-- C6: when the record text `get_start_time` has read (the C string in the
buffer of `slurp_file`) holds no `)`, or fewer than 20 space-delimited tokens
follow its last `)`, `get_start_time` of either variant ends in a fatal
`CHECK`: it returns no value. -/
theorem get_start_time_malformed (v : Variant) (w : World) (pid : Int)
    (contents : List Char) (size : Nat)
    (hread : slurp_file w (stat_path v pid) = .ok (contents, size))
    (hbad : ')' ∉ cstr contents ∨ (tokens (after_last ')' (cstr contents))).length < 20) :
    get_start_time v w pid = .abort "finding end of name" ∨
      get_start_time v w pid = .abort "parsing fields" := by
  unfold get_start_time
  simp only [hread, Res.bind]
  by_cases hmem : ')' ∈ cstr contents
  · right
    have hlt : (tokens (after_last ')' (cstr contents))).length < 20 := by
      rcases hbad with h | h
      · exact absurd hmem h
      · exact h
    rw [rindex_some _ _ hmem]
    simp only [strtok_anchor]
    rw [fields_loop_short _ _ _ (lt_of_le_of_lt (tokens_saved_le _) hlt)]
  · left
    rw [rindex_none _ _ hmem]

set_option maxRecDepth 100000 in
/-- Witness of C6 on a record with three fields after the name. -/
theorem get_start_time_malformed_witness :
    slurp_file (sample_world none short_record) (stat_path .canonical 1)
        = .ok (short_buffer, 11) ∧
    (tokens (after_last ')' (cstr short_buffer))).length < 20 ∧
    (get_start_time .canonical (sample_world none short_record) 1
        = .abort "finding end of name" ∨
      get_start_time .canonical (sample_world none short_record) 1
        = .abort "parsing fields") :=
  ⟨by decide, by decide,
    get_start_time_malformed .canonical (sample_world none short_record) 1 short_buffer 11
      (by decide) (Or.inr (by decide))⟩

/-- A buffer that starts with a text and holds a NUL right after it is, as a C
string, the C string of that text. -/
theorem cstr_buffer_prefix (out text : List Char) (h1 : out.take text.length = text)
    (h2 : out[text.length]? = some NUL) : cstr out = cstr text := by
  have hsplit := List.take_append_drop text.length out
  have h0 : (out.drop text.length)[0]? = some NUL := by
    rw [List.getElem?_drop]
    simpa using h2
  cases hd : out.drop text.length with
  | nil => rw [hd] at h0; simp at h0
  | cons a t =>
    rw [hd] at h0
    have ha : a = NUL := by simpa using h0
    subst ha
    rw [← hsplit, h1, hd]
    clear hsplit h1 h2 hd h0
    induction text with
    | nil => simp [cstr]
    | cons x xs ih =>
      by_cases hx : x = NUL
      · subst hx
        simp [cstr]
      · simp only [cstr] at ih ⊢
        rw [List.cons_append, List.takeWhile_cons_of_pos (by simpa using hx),
          List.takeWhile_cons_of_pos (by simpa using hx), ih]

/-- The same on the file: when `/proc/<pid>/stat` is readable, holds `text`, and
`realloc` succeeds, a text (up to its first NUL, if it has one) without `)` or
with fewer than 20 tokens after its last `)` makes `get_start_time` fatal. -/
theorem get_start_time_malformed_file (v : Variant) (w : World) (pid : Int)
    (text : List Char)
    (hopen : w.open_r (stat_path v pid) = some (FILE.of_bytes text))
    (halloc : ∀ n, w.alloc_fails n = false)
    (hbad : ')' ∉ cstr text ∨ (tokens (after_last ')' (cstr text))).length < 20) :
    get_start_time v w pid = .abort "finding end of name" ∨
      get_start_time v w pid = .abort "parsing fields" := by
  obtain ⟨out, e1, e2, -, e4⟩ := slurp_file_of_bytes w _ _ hopen halloc
  have hc := cstr_buffer_prefix out text e2 e4
  unfold get_start_time
  simp only [e1, Res.bind, hc]
  by_cases hmem : ')' ∈ cstr text
  · right
    have hlt : (tokens (after_last ')' (cstr text))).length < 20 := by
      rcases hbad with h | h
      · exact absurd hmem h
      · exact h
    rw [rindex_some _ _ hmem]
    simp only [strtok_anchor]
    rw [fields_loop_short _ _ _ (lt_of_le_of_lt (tokens_saved_le _) hlt)]
  · left
    rw [rindex_none _ _ hmem]

/-- On a record `<pid> (<name>) f3 ... fN` without NUL, whose fields are not
empty and hold no space and no `)`, with `f22` the decimal text of `T` in
range, `get_start_time` of either variant returns `T` whatever the name is,
except that `T = ULLONG_MAX` met with a stale `errno = ERANGE` is fatal. -/
theorem get_start_time_record (v : Variant) (w : World) (pid : Int)
    (pid_text name : List Char) (fields : List (List Char)) (T : Nat)
    (hopen : w.open_r (stat_path v pid)
      = some (FILE.of_bytes (status_record pid_text name fields)))
    (halloc : ∀ n, w.alloc_fails n = false)
    (hpid : ∀ c ∈ pid_text, c ≠ NUL)
    (hname : ∀ c ∈ name, c ≠ NUL)
    (hfields : ∀ f ∈ fields, f ≠ [] ∧ ∀ c ∈ f, c ≠ ' ' ∧ c ≠ ')' ∧ c ≠ NUL)
    (h22 : fields[19]? = some (fmt_llu T))
    (hT : T ≤ ULLONG_MAX) :
    get_start_time v w pid
      = if T = ULLONG_MAX ∧ w.errno = ERANGE then .abort "parsing time" else .ok T := by
  obtain ⟨out, e1, e2, -, e4⟩ := slurp_file_of_bytes w _ _ hopen halloc
  generalize hrest : (fields.map (fun f => ' ' :: f)).flatten = rest
  have hrec : status_record pid_text name fields
      = (pid_text ++ " (".toList ++ name) ++ ')' :: rest := by
    unfold status_record
    rw [hrest]
    simp
  have hrest_mem : ∀ c ∈ rest, c = ' ' ∨ ∃ f ∈ fields, c ∈ f := by
    intro c hc
    rw [← hrest] at hc
    simp only [List.mem_flatten, List.mem_map] at hc
    obtain ⟨l, ⟨f, hf, rfl⟩, hc⟩ := hc
    rcases List.mem_cons.1 hc with h | h
    · exact Or.inl h
    · exact Or.inr ⟨f, hf, h⟩
  have hnul : ∀ c ∈ status_record pid_text name fields, c ≠ NUL := by
    intro c hc
    rw [hrec] at hc
    simp only [List.mem_append, List.mem_cons] at hc
    rcases hc with ((hc | hc) | hc) | hc | hc
    · exact hpid c hc
    · revert c; decide
    · exact hname c hc
    · rw [hc]; decide
    · rcases hrest_mem c hc with h | ⟨f, hf, h⟩
      · rw [h]; decide
      · exact ((hfields f hf).2 c h).2.2
  have hparen : ')' ∉ rest := by
    intro hc
    rcases hrest_mem _ hc with h | ⟨f, hf, h⟩
    · revert h; decide
    · exact ((hfields f hf).2 _ h).2.1 rfl
  have hcstr : cstr out = status_record pid_text name fields := cstr_buffer out _ e2 e4 hnul
  have htok : tokens rest = fields := by
    rw [← hrest]
    exact tokens_fields fields (fun f hf => ⟨(hfields f hf).1, fun c hc => ((hfields f hf).2 c hc).1⟩)
  have hsaved : tokens ((rest.dropWhile (fun c => !decide (c ∈ [' ']))).drop 1) = fields := by
    cases fields with
    | nil => simp at h22
    | cons f fs =>
      rw [← hrest, List.map_cons, List.flatten_cons, List.cons_append,
        List.dropWhile_cons_of_neg (by decide), List.drop_one, List.tail_cons]
      rw [← hrest, List.map_cons, List.flatten_cons, List.cons_append, tokens_space] at htok
      exact htok
  have hlen : 20 ≤ fields.length := by
    by_contra hlt
    rw [List.getElem?_eq_none (by omega)] at h22
    simp at h22
  unfold get_start_time
  simp only [e1, Res.bind, hcstr]
  rw [hrec, rindex_some _ _ (by simp), after_last_append _ _ _ hparen]
  simp only [strtok_anchor]
  rw [fields_loop_enough _ _ _ (by rw [hsaved]; exact hlen), hsaved]
  have hfield : ∀ x : List Char, (x :: fields).getD 20 [] = fmt_llu T := by
    intro x
    rw [List.getD_cons_succ, List.getD_eq_getElem?_getD, h22]
    rfl
  simp only [hfield, strtoull_decimal _ _ hT, CHECK]
  by_cases hc : T = ULLONG_MAX ∧ w.errno = ERANGE
  · simp [hc]
  · rw [if_neg hc]
    have : (T == ULLONG_MAX && w.errno == ERANGE) = false := by
      simpa using hc
    simp [this]

/-- On such a record `get_start_time` returns `T` whenever `errno` is not a
stale `ERANGE` or `T` is below `ULLONG_MAX`. -/
theorem get_start_time_record_ok (v : Variant) (w : World) (pid : Int)
    (pid_text name : List Char) (fields : List (List Char)) (T : Nat)
    (hopen : w.open_r (stat_path v pid)
      = some (FILE.of_bytes (status_record pid_text name fields)))
    (halloc : ∀ n, w.alloc_fails n = false)
    (hpid : ∀ c ∈ pid_text, c ≠ NUL)
    (hname : ∀ c ∈ name, c ≠ NUL)
    (hfields : ∀ f ∈ fields, f ≠ [] ∧ ∀ c ∈ f, c ≠ ' ' ∧ c ≠ ')' ∧ c ≠ NUL)
    (h22 : fields[19]? = some (fmt_llu T))
    (hT : T ≤ ULLONG_MAX)
    (herrno : w.errno ≠ ERANGE ∨ T < ULLONG_MAX) :
    get_start_time v w pid = .ok T := by
  rw [get_start_time_record v w pid pid_text name fields T hopen halloc hpid hname hfields
    h22 hT, if_neg]
  rintro ⟨h1, h2⟩
  rcases herrno with h | h
  · exact h h2
  · exact absurd h1 (Nat.ne_of_lt h)

/-- Two records that differ only in the name give the same result, whatever
`errno` holds. -/
theorem get_start_time_name_independent (v : Variant) (w1 w2 : World) (pid : Int)
    (pid_text name1 name2 : List Char) (fields : List (List Char)) (T : Nat)
    (hopen1 : w1.open_r (stat_path v pid)
      = some (FILE.of_bytes (status_record pid_text name1 fields)))
    (hopen2 : w2.open_r (stat_path v pid)
      = some (FILE.of_bytes (status_record pid_text name2 fields)))
    (herrno : w1.errno = w2.errno)
    (halloc1 : ∀ n, w1.alloc_fails n = false) (halloc2 : ∀ n, w2.alloc_fails n = false)
    (hpid : ∀ c ∈ pid_text, c ≠ NUL)
    (hname1 : ∀ c ∈ name1, c ≠ NUL) (hname2 : ∀ c ∈ name2, c ≠ NUL)
    (hfields : ∀ f ∈ fields, f ≠ [] ∧ ∀ c ∈ f, c ≠ ' ' ∧ c ≠ ')' ∧ c ≠ NUL)
    (h22 : fields[19]? = some (fmt_llu T))
    (hT : T ≤ ULLONG_MAX) :
    get_start_time v w1 pid = get_start_time v w2 pid := by
  rw [get_start_time_record v w1 pid pid_text name1 fields T hopen1 halloc1 hpid hname1 hfields
      h22 hT,
    get_start_time_record v w2 pid pid_text name2 fields T hopen2 halloc2 hpid hname2 hfields
      h22 hT, herrno]

set_option maxRecDepth 100000 in
/-- C1, at a record whose field 22 is 18446744073709551615 read with
`errno = ERANGE` left over from before: `get_start_time` of either variant is
fatal ("parsing time") although the number fits in 64 bits; with `errno = 0`
the same record gives the number. -/
theorem get_start_time_stale_errno :
    get_start_time .canonical
        { sample_world none max_record with errno := ERANGE } 1 = .abort "parsing time" ∧
    get_start_time .simple
        { sample_world none max_record with errno := ERANGE } 1 = .abort "parsing time" ∧
    get_start_time .canonical (sample_world none max_record) 1 = .ok 18446744073709551615 := by
  decide

/-! ### `write_identity`: what a step leaves alone -/

/-- No step changes no answer. -/
theorem same_refl (w : World) : Same w w :=
  ⟨rfl, rfl, rfl, rfl, rfl, rfl, rfl, rfl, rfl⟩

/-- Steps that change no answer compose. -/
theorem same_trans {w w1 w2 : World} (h1 : Same w w1) (h2 : Same w1 w2) : Same w w2 := by
  obtain ⟨a1, a2, a3, a4, a5, a6, a7, a8, a9⟩ := h1
  obtain ⟨b1, b2, b3, b4, b5, b6, b7, b8, b9⟩ := h2
  exact ⟨b1.trans a1, b2.trans a2, b3.trans a3, b4.trans a4, b5.trans a5, b6.trans a6,
    b7.trans a7, b8.trans a8, b9.trans a9⟩

/-- Opening the output changes no answer of the system. -/
theorem fopen_w_same (w : World) (path : List Char) : Same w (fopen_w w path).2 := by
  unfold fopen_w
  split <;> exact same_refl w

/-- Closing the output changes no answer of the system. -/
theorem fclose_w_same (w : World) (path buffer : List Char) :
    Same w (fclose_w w path buffer).2 := by
  unfold fclose_w
  split <;> exact same_refl w

/-- Renaming changes no answer of the system. -/
theorem rename_same (w : World) (src dst : List Char) : Same w (rename w src dst).2 := by
  unfold rename
  split
  · exact same_refl w
  · split <;> exact same_refl w

/-- The loop of `slurp_file` depends on the allocator only. -/
theorem slurp_loop_congr (w w1 : World) (h1 : w1.alloc_fails = w.alloc_fails)
    (h2 : w1.junk = w.junk) (fuel : Nat) :
    ∀ file out size, slurp_loop w1 fuel file out size = slurp_loop w fuel file out size := by
  induction fuel with
  | zero => intros; rfl
  | succ n ih => intro file out size; simp only [slurp_loop, realloc, h1, h2, ih]

/-- The function `get_start_time` reads only answers of the system: worlds that
agree on them give the same result. -/
theorem get_start_time_congr (v : Variant) (w w1 : World) (pid : Int) (h : Same w w1) :
    get_start_time v w1 pid = get_start_time v w pid := by
  obtain ⟨-, -, h3, h4, h5, h6, -, -, -⟩ := h
  unfold get_start_time slurp_file
  simp only [h3, h4, slurp_loop_congr w w1 h5 h6]

/-- The file `get_start_time` reads is never the temporary file `write_identity`
has just opened for writing: the one path ends in `t`, the other in `p`. -/
theorem stat_path_ne_tmp_path (pid pid1 : Int) (dir_path : List Char) :
    stat_path .canonical pid ≠ dir_path ++ "/".toList ++ fmt_d pid1 ++ ".tmp".toList := by
  intro h
  have h1 := congrArg (fun l => l.reverse.head?) h
  simp [stat_path, List.reverse_append] at h1

/-- The temporary path is not the final path. -/
theorem ne_append_tmp (s : List Char) : s ++ ".tmp".toList ≠ s := by
  intro h
  have := congrArg List.length h
  simp at this

/-- When the allocation succeeds, `str_print` gives the text. -/
theorem str_print_ok (w : World) (text : List Char)
    (h : w.alloc_fails (text.length + 1) = false) : str_print w text = some text := by
  simp [str_print, h]

/-- When it succeeds, `fopen(path, "w")` leaves an empty file at `path`. -/
theorem fopen_w_ok (w : World) (path : List Char) (h : w.fopen_w_fails path = false) :
    fopen_w w path = (true, (w.set_file path (some [])).logged (.fopen_w path true)) := by
  simp [fopen_w, h]

/-- When it succeeds, `fclose` leaves the whole buffer in the file. -/
theorem fclose_w_ok (w : World) (path buffer : List Char) (h : w.fclose_w_fails path = none) :
    fclose_w w path buffer
      = (true, (w.set_file path (some buffer)).logged (.fclose path true)) := by
  simp [fclose_w, h]

/-- When it succeeds between different paths, `rename` leaves the content under
`dst` and nothing under `src`. -/
theorem rename_ok (w : World) (src dst content : List Char)
    (h : w.rename_fails src dst = false) (hsrc : w.files src = some content)
    (hne : src ≠ dst) :
    (rename w src dst).1 = true ∧
    (rename w src dst).2.files dst = some content ∧
    (rename w src dst).2.files src = none := by
  simp [rename, h, hsrc, hne, Function.update, Ne.symm hne]

/-- After a successful `fclose` the file holds the whole buffer. -/
theorem fclose_w_true (w w3 : World) (path buffer : List Char)
    (h : fclose_w w path buffer = (true, w3)) : w3.files path = some buffer := by
  unfold fclose_w at h
  split at h
  · have := congrArg Prod.snd h
    simp only at this
    subst this
    simp [World.logged, World.set_file]
  · simp at h

/-! ### `write_identity`: publication -/

/-- C8: with `SHIM_PID_DIR` unset, `write_identity` of either variant returns
normally and the world it leaves is the world it found: no file is opened,
created, written or renamed, nothing is logged, `get_start_time` is not run. -/
theorem write_identity_unset (v : Variant) (w : World) (h : w.SHIM_PID_DIR = none) :
    write_identity v w = (.ok (), w) := by
  simp [write_identity, h]

/-- Witness of C8 on the simpler variant, in a world without `SHIM_PID_DIR`. -/
theorem write_identity_unset_witness :
    (sample_world none sample_record).SHIM_PID_DIR = none ∧
      write_identity .simple (sample_world none sample_record)
        = (.ok (), sample_world none sample_record) :=
  ⟨rfl, write_identity_unset .simple _ rfl⟩

/-- C2: in the canonical variant, when `SHIM_PID_DIR` is `dir`, every call
succeeds and the start time resolves to `T`, `write_identity` returns with a
file `<dir>/<pid>` whose content is the decimal digits of `T` and one
newline, and with no file `<dir>/<pid>.tmp`. -/
theorem write_identity_publishes (w : World) (dir : List Char) (T : Nat)
    (hdir : w.SHIM_PID_DIR = some dir)
    (halloc1 : w.alloc_fails
      ((dir ++ "/".toList ++ fmt_d w.pid ++ ".tmp".toList).length + 1) = false)
    (halloc2 : w.alloc_fails ((dir ++ "/".toList ++ fmt_d w.pid).length + 1) = false)
    (hopen : w.fopen_w_fails (dir ++ "/".toList ++ fmt_d w.pid ++ ".tmp".toList) = false)
    (hstart : get_start_time .canonical w w.pid = .ok T)
    (hclose : w.fclose_w_fails (dir ++ "/".toList ++ fmt_d w.pid ++ ".tmp".toList) = none)
    (hrename : w.rename_fails (dir ++ "/".toList ++ fmt_d w.pid ++ ".tmp".toList)
      (dir ++ "/".toList ++ fmt_d w.pid) = false) :
    (write_identity .canonical w).1 = .ok () ∧
    (write_identity .canonical w).2.files (dir ++ "/".toList ++ fmt_d w.pid)
      = some (fmt_llu T ++ "\n".toList) ∧
    (write_identity .canonical w).2.files (dir ++ "/".toList ++ fmt_d w.pid ++ ".tmp".toList)
      = none := by
  have hne := ne_append_tmp (dir ++ "/".toList ++ fmt_d w.pid)
  generalize htmp : dir ++ "/".toList ++ fmt_d w.pid ++ ".tmp".toList = tmp at *
  generalize hbuf : fmt_llu T ++ "\n".toList = buf
  have e0 : str_print w tmp = some tmp := str_print_ok w tmp halloc1
  have e1 : fopen_w w tmp = (true, (w.set_file tmp (some [])).logged (.fopen_w tmp true)) :=
    fopen_w_ok w tmp hopen
  generalize (w.set_file tmp (some [])).logged (.fopen_w tmp true) = w1 at e1
  have s1 : Same w w1 := by
    have := fopen_w_same w tmp
    rwa [e1] at this
  obtain ⟨-, -, -, -, a5, -, -, a8, a9⟩ := s1
  have e2 : get_start_time .canonical (w1.logged (.get_start_time w.pid)) w.pid = .ok T := by
    rw [get_start_time_congr _ w _ _ (by
      have := fopen_w_same w tmp
      rwa [e1] at this), hstart]
  have e3 := fclose_w_ok (w1.logged (.get_start_time w.pid)) tmp buf
    (by show w1.fclose_w_fails tmp = none; rw [a8]; exact hclose)
  have e4 : str_print ((World.set_file (w1.logged (.get_start_time w.pid)) tmp
      (some buf)).logged (.fclose tmp true)) (dir ++ "/".toList ++ fmt_d w.pid)
      = some (dir ++ "/".toList ++ fmt_d w.pid) :=
    str_print_ok _ _ (by show w1.alloc_fails _ = false; rw [a5]; exact halloc2)
  have hr := rename_ok ((World.set_file (w1.logged (.get_start_time w.pid)) tmp
      (some buf)).logged (.fclose tmp true)) tmp (dir ++ "/".toList ++ fmt_d w.pid) buf
    (by show w1.rename_fails _ _ = false; rw [a9]; exact hrename)
    (by simp [World.logged, World.set_file]) hne
  unfold write_identity
  simp only [hdir, htmp, hbuf, e0, e1, e2, e3, e4]
  revert hr
  generalize rename _ _ _ = r
  rcases r with ⟨b, w4⟩
  rintro ⟨h1, h2, h3⟩
  simp only at h1
  subst h1
  exact ⟨rfl, h2, h3⟩

set_option maxRecDepth 100000 in
/-- Witness of C2: pid 1 publishing start time 1234 into `/tmp`. -/
theorem write_identity_publishes_witness :
    get_start_time .canonical (sample_world (some "/tmp".toList) sample_record)
        (sample_world (some "/tmp".toList) sample_record).pid = .ok 1234 ∧
    ((write_identity .canonical (sample_world (some "/tmp".toList) sample_record)).1 = .ok () ∧
      (write_identity .canonical (sample_world (some "/tmp".toList) sample_record)).2.files
          ("/tmp".toList ++ "/".toList
            ++ fmt_d (sample_world (some "/tmp".toList) sample_record).pid)
        = some (fmt_llu 1234 ++ "\n".toList) ∧
      (write_identity .canonical (sample_world (some "/tmp".toList) sample_record)).2.files
          ("/tmp".toList ++ "/".toList
            ++ fmt_d (sample_world (some "/tmp".toList) sample_record).pid ++ ".tmp".toList)
        = none) :=
  ⟨by decide,
    write_identity_publishes (sample_world (some "/tmp".toList) sample_record) "/tmp".toList
      1234 rfl rfl rfl rfl (by decide) rfl rfl⟩

/-! ### `write_identity`: the final path during a run -/

/-- A run of no step goes through the state it starts in. -/
theorem track_refl (P : Files → Prop) (w : World) (h : P w.files) : Track P w w :=
  ⟨[], by simp, by simpa using h⟩

/-- Recording an event is no change of the files. -/
theorem track_logged {P : Files → Prop} {w wi : World} (e : Event) (h : Track P w wi) :
    Track P w (wi.logged e) := h

/-- A change of one file adds the state it leads to. -/
theorem track_set_file {P : Files → Prop} {w wi : World} (path : List Char)
    (content : Option (List Char)) (h : Track P w wi)
    (hP : P (Function.update wi.files path content)) :
    Track P w (wi.set_file path content) := by
  obtain ⟨new, hpast, hall⟩ := h
  refine ⟨wi.files :: new, by simp [World.set_file, hpast], ?_⟩
  intro fs hfs
  rcases List.mem_cons.1 hfs with rfl | hfs
  · exact hP
  · exact hall fs hfs

/-- The current state is one of the states gone through. -/
theorem track_current {P : Files → Prop} {w wi : World} (h : Track P w wi) : P wi.files := by
  obtain ⟨new, -, hall⟩ := h
  exact hall _ (by simp)

/-- Opening the output goes through states in which at most `path` changed. -/
theorem fopen_w_track {P : Files → Prop} {w wi : World} (path : List Char)
    (h : Track P w wi) (hP : ∀ c, P (Function.update wi.files path c)) :
    Track P w (fopen_w wi path).2 := by
  unfold fopen_w
  split
  · exact track_logged _ h
  · exact track_logged _ (track_set_file _ _ h (hP _))

/-- Closing the output goes through states in which at most `path` changed. -/
theorem fclose_w_track {P : Files → Prop} {w wi : World} (path buffer : List Char)
    (h : Track P w wi) (hP : ∀ c, P (Function.update wi.files path c)) :
    Track P w (fclose_w wi path buffer).2 := by
  unfold fclose_w
  split
  · exact track_logged _ (track_set_file _ _ h (hP _))
  · exact track_logged _ (track_set_file _ _ h (hP _))

/-- Renaming goes through at most one new state, the one after the move. -/
theorem rename_track {P : Files → Prop} {w wi : World} (src dst : List Char)
    (h : Track P w wi)
    (hP : P (Function.update (Function.update wi.files dst (wi.files src)) src none)) :
    Track P w (rename wi src dst).2 := by
  unfold rename
  split
  · exact track_logged _ h
  · split
    · exact track_logged _ h
    · obtain ⟨new, hpast, hall⟩ := h
      refine ⟨wi.files :: new, by simp [hpast], ?_⟩
      intro fs hfs
      rcases List.mem_cons.1 hfs with rfl | hfs
      · exact hP
      · exact hall fs hfs

/-- C3, amended: in every state the file system goes through during
`write_identity` of the canonical variant, whichever call fails and wherever
the run is cut short, the final path `<dir>/<pid>` holds what it held on entry
or the complete `T\n` of the resolved start time `T`. -/
theorem final_path_old_or_complete (w : World) (dir : List Char)
    (hdir : w.SHIM_PID_DIR = some dir) :
    Track
      (fun fs =>
        fs (dir ++ "/".toList ++ fmt_d w.pid) = w.files (dir ++ "/".toList ++ fmt_d w.pid) ∨
        ∃ T, get_start_time .canonical w w.pid = .ok T ∧
          fs (dir ++ "/".toList ++ fmt_d w.pid) = some (fmt_llu T ++ "\n".toList))
      w (write_identity .canonical w).2 := by
  have hne := ne_append_tmp (dir ++ "/".toList ++ fmt_d w.pid)
  generalize hfinal : dir ++ "/".toList ++ fmt_d w.pid = final at *
  generalize hP : (fun fs : Files => fs final = w.files final ∨
    ∃ T, get_start_time .canonical w w.pid = .ok T ∧
      fs final = some (fmt_llu T ++ "\n".toList)) = P
  have hPdef : ∀ fs, P fs ↔ (fs final = w.files final ∨
      ∃ T, get_start_time .canonical w w.pid = .ok T ∧
        fs final = some (fmt_llu T ++ "\n".toList)) := by
    intro fs; rw [← hP]
  have hupd : ∀ (wi : World), Track P w wi →
      ∀ c, P (Function.update wi.files (final ++ ".tmp".toList) c) := by
    intro wi hwi c
    have := (hPdef _).1 (track_current hwi)
    rw [hPdef, Function.update_noteq hne.symm]
    exact this
  have t0 : Track P w w := track_refl P w ((hPdef _).2 (Or.inl rfl))
  unfold write_identity
  simp only [hdir, hfinal]
  split
  · exact t0
  · rename_i tmp_path hsp
    have htmp : tmp_path = final ++ ".tmp".toList := by
      unfold str_print at hsp
      split at hsp
      · simp at hsp
      · simpa using hsp.symm
    subst htmp
    have t1 := fopen_w_track (final ++ ".tmp".toList) t0 (hupd w t0)
    have s1 := fopen_w_same w (final ++ ".tmp".toList)
    split
    · rename_i h; rw [h] at t1; exact t1
    · rename_i w1 h
      rw [h] at t1 s1
      have t2 : Track P w (w1.logged (.get_start_time w.pid)) := track_logged _ t1
      have s2 : Same w (w1.logged (.get_start_time w.pid)) := s1
      split
      · exact t2
      · exact t2
      · rename_i start_time hst
        rw [get_start_time_congr _ w _ _ s2] at hst
        have t3 := fclose_w_track (final ++ ".tmp".toList)
          (fmt_llu start_time ++ "\n".toList) t2 (hupd _ t2)
        split
        · rename_i h3; rw [h3] at t3; exact t3
        · rename_i w3 h3
          rw [h3] at t3
          have hfile := fclose_w_true _ _ _ _ h3
          split
          · exact t3
          · rename_i path hpath
            have hpath2 : final = path := by
              unfold str_print at hpath
              split at hpath
              · simp at hpath
              · simpa using hpath
            subst hpath2
            have t4 := rename_track (final ++ ".tmp".toList) final t3 (by
              rw [hPdef]
              right
              refine ⟨start_time, hst, ?_⟩
              dsimp only
              rw [Function.update_noteq hne.symm, Function.update_same, hfile])
            split
            · rename_i h4; rw [h4] at t4; exact t4
            · rename_i h4; rw [h4] at t4; exact t4

/-- Witness of C3 as amended, in a world where `/tmp/1` exists beforehand. -/
theorem final_path_old_or_complete_witness :
    stale_world.SHIM_PID_DIR = some "/tmp".toList ∧
    Track
      (fun fs =>
        fs ("/tmp".toList ++ "/".toList ++ fmt_d stale_world.pid)
            = stale_world.files ("/tmp".toList ++ "/".toList ++ fmt_d stale_world.pid) ∨
        ∃ T, get_start_time .canonical stale_world stale_world.pid = .ok T ∧
          fs ("/tmp".toList ++ "/".toList ++ fmt_d stale_world.pid)
            = some (fmt_llu T ++ "\n".toList))
      stale_world (write_identity .canonical stale_world).2 :=
  ⟨rfl, final_path_old_or_complete stale_world "/tmp".toList rfl⟩

set_option maxRecDepth 100000 in
/-- C3 as stated fails: with `/tmp/1` left over from an earlier process, the run
for pid 1 and start time 1234 goes through states where `/tmp/1` is neither
absent nor `1234\n`. -/
theorem final_path_stale_content :
    get_start_time .canonical stale_world 1 = .ok 1234 ∧
    ¬ ∀ fs ∈ (write_identity .canonical stale_world).2.files ::
        (write_identity .canonical stale_world).2.past,
      fs "/tmp/1".toList = none ∨ fs "/tmp/1".toList = some "1234\n".toList := by
  decide

/-! ### `write_identity` of the simpler variant -/

/-- The rename destination of the simpler variant is the temporary path itself,
`.tmp` included, for every directory and every pid of a 32-bit `pid_t`. -/
theorem simple_path_eq_tmp_path (dir_path : List Char) (pid : Int)
    (hdir : ∀ c ∈ dir_path, c ≠ NUL) (h0 : 0 < pid) (h1 : pid < 2 ^ 31) :
    simple_path dir_path pid = dir_path ++ "/".toList ++ fmt_d pid ++ ".tmp".toList := by
  have hfmt : fmt_d pid = Nat.toDigits 10 pid.toNat := by
    simp [fmt_d, not_lt.2 h0.le]
  have hP : PID_MAX_LIMIT_LEN = 13 := by decide
  have hlen : (fmt_d pid).length ≤ 10 := by
    rw [hfmt]
    apply toDigits_length_le _ _ _ (by decide)
    omega
  have hnul : ∀ c ∈ dir_path ++ "/".toList ++ fmt_d pid ++ ".tmp".toList, c ≠ NUL := by
    intro c hc
    simp only [List.mem_append] at hc
    rcases hc with ((hc | hc) | hc) | hc
    · exact hdir c hc
    · revert c; decide
    · rw [hfmt] at hc; exact toDigits_no_NUL _ c hc
    · revert c; decide
  have htmp : simple_tmp_path dir_path pid
      = dir_path ++ "/".toList ++ fmt_d pid ++ ".tmp".toList := by
    unfold simple_tmp_path snprintf
    apply List.take_of_length_le
    rw [hP]
    simp
    omega
  unfold simple_path strncpy
  rw [htmp]
  dsimp only
  generalize hs : dir_path ++ "/".toList ++ fmt_d pid ++ ".tmp".toList = s at hnul
  have hsl : s.length ≤ dir_path.length + PID_MAX_LIMIT_LEN + 6 - 4 := by
    subst hs
    rw [hP]
    simp
    omega
  rw [List.take_of_length_le hsl, List.append_assoc]
  have : List.replicate (dir_path.length + PID_MAX_LIMIT_LEN + 6 - 4 - s.length) NUL ++ [NUL]
      = NUL :: List.replicate (dir_path.length + PID_MAX_LIMIT_LEN + 6 - 4 - s.length) NUL := by
    rw [← List.replicate_succ, List.replicate_succ']
  rw [this]
  exact cstr_append_NUL s _ hnul

set_option maxRecDepth 100000 in
/-- C9, at directory `/tmp` and pid 1: the simpler variant builds the temporary
path `/tmp/1.tmp` and the very same text as rename destination, so it ends
with the content under `/tmp/1.tmp` and nothing under `/tmp/1`, where the
canonical variant publishes. -/
theorem simple_variant_rename_destination :
    simple_tmp_path "/tmp".toList 1 = "/tmp/1.tmp".toList ∧
    simple_path "/tmp".toList 1 = "/tmp/1.tmp".toList ∧
    (write_identity .simple (sample_world (some "/tmp".toList) sample_record)).1 = .ok () ∧
    (write_identity .simple (sample_world (some "/tmp".toList) sample_record)).2.files
      "/tmp/1".toList = none ∧
    (write_identity .simple (sample_world (some "/tmp".toList) sample_record)).2.files
      "/tmp/1.tmp".toList = some "1234\n".toList ∧
    (write_identity .canonical (sample_world (some "/tmp".toList) sample_record)).2.files
      "/tmp/1".toList = some "1234\n".toList := by
  decide

/-! ### The hooks -/

/-- The constant 0x00010000 has bit 16 set and no other. -/
theorem testBit_65536 (i : Nat) : Nat.testBit 65536 i = decide (16 = i) := by
  have h := @Nat.testBit_two_pow 16 i
  norm_num at h
  simpa using h

/-- The test `!( CLONE_THREAD & flags )` holds exactly when bit 16 of `flags` is
clear. -/
theorem land_CLONE_THREAD_eq_zero (f : Int) :
    Int.land CLONE_THREAD f = 0 ↔ f.testBit 16 = false := by
  constructor
  · intro h
    have h1 := Int.testBit_land CLONE_THREAD f 16
    rw [h] at h1
    have h2 : Int.testBit CLONE_THREAD 16 = true := by decide
    have h3 : Int.testBit 0 16 = false := by decide
    rw [h2, h3] at h1
    simpa using h1.symm
  · intro h
    cases f with
    | ofNat n =>
      have hn : Nat.testBit n 16 = false := h
      show ((65536 &&& n : Nat) : Int) = 0
      have : (65536 &&& n : Nat) = 0 := by
        apply Nat.zero_of_testBit_eq_false
        intro i
        rw [Nat.testBit_and, testBit_65536]
        by_cases hi : 16 = i
        · subst hi; simp [hn]
        · simp [hi]
      rw [this]; rfl
    | negSucc n =>
      have hn : (!Nat.testBit n 16) = false := h
      show ((Nat.ldiff 65536 n : Nat) : Int) = 0
      have : Nat.ldiff 65536 n = 0 := by
        apply Nat.zero_of_testBit_eq_false
        intro i
        rw [Nat.testBit_ldiff, testBit_65536]
        by_cases hi : 16 = i
        · subst hi; simpa using hn
        · simp [hi]
      rw [this]; rfl

/-- C4: when bit 16 (`CLONE_THREAD`, 0x00010000) of `flags` is set, the hook
`clone` is the genuine clone on the unchanged seven arguments, in a world
where nothing but the call itself happened (no write); when it is clear, the
genuine clone gets `wrapper_fn` and the address of a fresh `wrapper_arg` that
holds exactly the original `(arg, fn)`, the other five arguments unchanged,
with the files untouched; in both cases the hook returns what the genuine
clone returned. -/
theorem clone_forwards (next : Next) (a : CloneArgs) (w : World) :
    (a.flags.testBit 16 = true →
      clone next a w = next.clone_ a (w.logged (.clone_ a (w.heap a.arg)))) ∧
    (a.flags.testBit 16 = false →
      ∃ w1 : World,
        w1.heap w.malloc_next = some { arg := a.arg, fn := a.fn } ∧
        (∀ p, p ≠ w.malloc_next → w1.heap p = w.heap p) ∧
        w1.files = w.files ∧ w1.past = w.past ∧
        w1.log = w.log ++ [.clone_ { a with fn := .wrapper_fn, arg := w.malloc_next }
          (some { arg := a.arg, fn := a.fn })] ∧
        (clone next a w).1
          = (next.clone_ { a with fn := .wrapper_fn, arg := w.malloc_next } w1).1) := by
  constructor
  · intro h
    have h0 : ¬ Int.land CLONE_THREAD a.flags = 0 := by
      rw [land_CLONE_THREAD_eq_zero]; simp [h]
    simp [clone, h0]
  · intro h
    have h0 : Int.land CLONE_THREAD a.flags = 0 := (land_CLONE_THREAD_eq_zero _).2 h
    let heap1 := Function.update w.heap w.malloc_next (some { arg := a.arg, fn := a.fn })
    refine ⟨World.logged { w with heap := heap1 }
        (.clone_ { a with fn := .wrapper_fn, arg := w.malloc_next }
          (some { arg := a.arg, fn := a.fn })), ?_, ?_, rfl, rfl, rfl, ?_⟩
    · simp [World.logged, heap1]
    · intro p hp
      simp [World.logged, heap1, Function.update, hp]
    · simp [clone, h0, World.logged, heap1]

/-- Witness of C4 on a call that creates a thread and on one that creates a
process. -/
theorem clone_forwards_witness :
    clone sample_next thread_args (sample_world none sample_record)
      = (4711, (sample_world none sample_record).logged (.clone_ thread_args none)) ∧
    ∃ w1 : World,
      w1.heap (sample_world none sample_record).malloc_next
        = some { arg := process_args.arg, fn := process_args.fn } ∧
      (∀ p, p ≠ (sample_world none sample_record).malloc_next →
        w1.heap p = (sample_world none sample_record).heap p) ∧
      w1.files = (sample_world none sample_record).files ∧
      w1.past = (sample_world none sample_record).past ∧
      w1.log = (sample_world none sample_record).log ++
        [.clone_ { process_args with
            fn := .wrapper_fn, arg := (sample_world none sample_record).malloc_next }
          (some { arg := process_args.arg, fn := process_args.fn })] ∧
      (clone sample_next process_args (sample_world none sample_record)).1
        = (sample_next.clone_ { process_args with
            fn := .wrapper_fn, arg := (sample_world none sample_record).malloc_next } w1).1 :=
  ⟨(clone_forwards sample_next thread_args (sample_world none sample_record)).1 (by decide),
    (clone_forwards sample_next process_args (sample_world none sample_record)).2 (by decide)⟩

/-- No step forwards nothing. -/
theorem quiet_refl (w : World) : Quiet w w :=
  ⟨rfl, [], by simp, by simp⟩

/-- Steps that forward nothing compose. -/
theorem quiet_trans {w w1 w2 : World} (h1 : Quiet w w1) (h2 : Quiet w1 w2) : Quiet w w2 := by
  obtain ⟨hh1, evs1, hl1, hf1⟩ := h1
  obtain ⟨hh2, evs2, hl2, hf2⟩ := h2
  refine ⟨hh2.trans hh1, evs1 ++ evs2, by rw [hl2, hl1, List.append_assoc], ?_⟩
  intro e he
  rcases List.mem_append.1 he with he | he
  · exact hf1 e he
  · exact hf2 e he

/-- Recording an event that is no forward forwards nothing. -/
theorem quiet_logged (w : World) (e : Event) (h : e.is_forward = false) :
    Quiet w (w.logged e) :=
  ⟨rfl, [e], rfl, by simpa using h⟩

/-- A change of a file forwards nothing. -/
theorem quiet_set_file (w : World) (path : List Char) (content : Option (List Char)) :
    Quiet w (w.set_file path content) :=
  ⟨rfl, [], by simp [World.set_file], by simp⟩

/-- Opening the output forwards nothing. -/
theorem fopen_w_quiet (w : World) (path : List Char) : Quiet w (fopen_w w path).2 := by
  unfold fopen_w
  split
  · exact quiet_logged _ _ rfl
  · exact quiet_trans (quiet_set_file _ _ _) (quiet_logged _ _ rfl)

/-- Closing the output forwards nothing. -/
theorem fclose_w_quiet (w : World) (path buffer : List Char) :
    Quiet w (fclose_w w path buffer).2 := by
  unfold fclose_w
  split
  · exact quiet_trans (quiet_set_file _ _ _) (quiet_logged _ _ rfl)
  · exact quiet_trans (quiet_set_file _ _ _) (quiet_logged _ _ rfl)

/-- Renaming forwards nothing. -/
theorem rename_quiet (w : World) (src dst : List Char) : Quiet w (rename w src dst).2 := by
  unfold rename
  split
  · exact quiet_logged _ _ rfl
  · split
    · exact quiet_logged _ _ rfl
    · exact ⟨rfl, [.rename src dst true], rfl, by simp [Event.is_forward]⟩

/-- From entry to exit `write_identity` hands control to nobody and leaves the
heap alone. -/
theorem write_identity_quiet (v : Variant) (w : World) : Quiet w (write_identity v w).2 := by
  unfold write_identity
  split
  · exact quiet_refl w
  · rename_i dir_path _
    have hq1 : ∀ p b w1, fopen_w w p = (b, w1) → Quiet w w1 := by
      intro p b w1 h
      have := fopen_w_quiet w p
      rwa [h] at this
    have hq2 : ∀ w1, Quiet w1 (w1.logged (.get_start_time w.pid)) :=
      fun w1 => quiet_logged _ _ rfl
    have hq3 : ∀ (w2 : World) p buf b w3, fclose_w w2 p buf = (b, w3) → Quiet w2 w3 := by
      intro w2 p buf b w3 h
      have := fclose_w_quiet w2 p buf
      rwa [h] at this
    have hq4 : ∀ (w3 : World) p q b w4, rename w3 p q = (b, w4) → Quiet w3 w4 := by
      intro w3 p q b w4 h
      have := rename_quiet w3 p q
      rwa [h] at this
    cases v with
    | canonical =>
      dsimp only
      split
      · exact quiet_refl w
      · split
        · rename_i h; exact hq1 _ _ _ h
        · rename_i h
          have q2 := quiet_trans (hq1 _ _ _ h) (hq2 _)
          split
          · exact q2
          · exact q2
          · split
            · rename_i h3; exact quiet_trans q2 (hq3 _ _ _ _ _ h3)
            · rename_i h3
              have q3 := quiet_trans q2 (hq3 _ _ _ _ _ h3)
              split
              · exact q3
              · split
                · rename_i h4; exact quiet_trans q3 (hq4 _ _ _ _ _ h4)
                · rename_i h4; exact quiet_trans q3 (hq4 _ _ _ _ _ h4)
    | simple =>
      dsimp only
      split
      · rename_i h; exact hq1 _ _ _ h
      · rename_i h
        have q2 := quiet_trans (hq1 _ _ _ h) (hq2 _)
        split
        · exact q2
        · exact q2
        · split
          · rename_i h3; exact quiet_trans q2 (hq3 _ _ _ _ _ h3)
          · rename_i h3
            have q3 := quiet_trans q2 (hq3 _ _ _ _ _ h3)
            split
            · exact q3
            · split
              · rename_i h4; exact quiet_trans q3 (hq4 _ _ _ _ _ h4)
              · rename_i h4; exact quiet_trans q3 (hq4 _ _ _ _ _ h4)

/-- C5: both hooks run `write_identity` first and forward afterwards. No
forward happens inside `write_identity`. When it returns, `__libc_start_main`
(either variant) calls the next `__libc_start_main` once, on the seven
unchanged parameters, in the world `write_identity` left, and returns its
result; `wrapper_fn` calls `fn( arg )` of its context once, in that world, and
returns its result. When `write_identity` does not return, neither hook
returns a value and nothing is forwarded: the world is the one
`write_identity` left. -/
theorem hooks_write_before_forward (v : Variant) (next : Next) (w : World) :
    Quiet w (write_identity v w).2 ∧
    (∀ a : StartArgs,
      (∀ w1, write_identity v w = (.ok (), w1) →
        __libc_start_main v next a w
          = (.ok (next.libc_start_main a (w1.logged (.libc_start_main a))).1,
              (next.libc_start_main a (w1.logged (.libc_start_main a))).2)) ∧
      ((write_identity v w).1 ≠ .ok () →
        (∀ r, (__libc_start_main v next a w).1 ≠ .ok r) ∧
        (__libc_start_main v next a w).2 = (write_identity v w).2)) ∧
    (∀ (arg : Nat) (ctx : wrapper_arg), w.heap arg = some ctx →
      (∀ w1, write_identity .canonical w = (.ok (), w1) →
        wrapper_fn next arg w
          = (.ok (next.call ctx.fn ctx.arg (w1.logged (.call ctx.fn ctx.arg))).1,
              (next.call ctx.fn ctx.arg (w1.logged (.call ctx.fn ctx.arg))).2)) ∧
      ((write_identity .canonical w).1 ≠ .ok () →
        (∀ r, (wrapper_fn next arg w).1 ≠ .ok r) ∧
        (wrapper_fn next arg w).2 = (write_identity .canonical w).2)) := by
  refine ⟨write_identity_quiet v w, ?_, ?_⟩
  · intro a
    constructor
    · intro w1 h
      simp [__libc_start_main, h]
    · intro h
      unfold __libc_start_main
      split
      · rename_i h1; rw [h1] at h; exact absurd rfl h
      · rename_i h1; simp [h1]
      · rename_i h1; simp [h1]
  · intro arg ctx hctx
    constructor
    · intro w1 h
      have hheap : w1.heap = w.heap := by
        have := (write_identity_quiet .canonical w).1
        rwa [h] at this
      simp [wrapper_fn, h, hheap, hctx]
    · intro h
      unfold wrapper_fn
      split
      · rename_i h1; rw [h1] at h; exact absurd rfl h
      · rename_i h1; simp [h1]
      · rename_i h1; simp [h1]

set_option maxRecDepth 100000 in
/-- Witness of C5 on `wrapper_fn` with a context at address 4096. -/
theorem hooks_write_before_forward_witness :
    wrapper_fn sample_next 4096
        { sample_world (some "/tmp".toList) sample_record with
          heap := fun p => if p = 4096 then some { arg := 300, fn := .addr 100 } else none }
      = (.ok 7,
          (write_identity .canonical
            { sample_world (some "/tmp".toList) sample_record with
              heap := fun p => if p = 4096 then some { arg := 300, fn := .addr 100 } else none
            }).2.logged (.call (.addr 100) 300)) :=
  ((hooks_write_before_forward .canonical sample_next
    { sample_world (some "/tmp".toList) sample_record with
      heap := fun p => if p = 4096 then some { arg := 300, fn := .addr 100 } else none }).2.2
    4096 { arg := 300, fn := .addr 100 } rfl).1 _ (Prod.ext (by decide) rfl)

end ProcessTracker
